import Mathlib

/-!
Verification of the `acter_queue` asynchronous task-serialization queue
(`src/queue/mod.rs`, `AQueue`).

The source is concurrent Rust.  We embed it as an interleaving small-step
transition system under sequential consistency: each submitting caller is a
thread; every atomic operation of the source (the `ConcurrentQueue` push/pop,
the `AtomicU8` load / store / compare_exchange on `state` and `lock`, running
a popped item to completion, and the await of the oneshot receiver) is one
atomic step of the system.  A schedule is a list of thread choices; all
interleavings are quantified by quantifying over schedules.

Thread `i` (for `i` below the thread count) performs `AQueue::push` of its own
task (created by `AQueue::run`, whose wrapped computation yields the fixed
result `tasks[i] : Except Nat Nat`), exactly as lines 74-83 of
`src/queue/mod.rs`:

  1. `deque.push(item)` - fails iff the concurrent queue is closed
     (`atPush`; the queue is unbounded, so closure is the only failure);
  2. `while lock.load() == OPEN { spin_loop() }` (`atSpin`, a self-loop);
  3. `run_ing()`:
     - `state.compare_exchange(IDLE, OPEN)` (`atCas`);
     - on success, the drain loop of lines 88-98: `lock.store(OPEN)`
       (`atDrainLock`), `deque.pop()` (`atPop`), `lock.store(IDLE)`
       (`atClear`), `item.await?` (`atExec`), and on the empty-pop break
       `state.store(IDLE)` (`atSetStateIdle`) then `lock.store(IDLE)`
       (`atSetLockIdle`);
     - an `Err` from `item.await` propagates through the `?` of line 97 and
       the `?` of line 81, so the caller returns `Err` and drops its own
       receiver (`done engineErr`);
  4. `rx.await` (`atAwaitRx`), resolving with the task's own
     `Result` value once the wrapper has sent it.

A caller abandoning its receiver (dropping its future while parked on
`rx.await`) is the `Action.cancel` step; it is the only source of
"receiver already abandoned" send failures.

The fields `pushed`, `popped`, `sentL` of `Config` are history (ghost)
variables: they record the order of successful pushes, of pops, and of
successful result deliveries.  No step ever reads them.
-/

deriving instance DecidableEq for Except

namespace ActerQueue

/-- Source constant `IDLE: u8 = 0` (line 16 of `src/queue/mod.rs`). -/
def IDLE : Nat := 0

/-- Source constant `OPEN: u8 = 1` (line 17 of `src/queue/mod.rs`). -/
def OPEN : Nat := 1

/-- State of one task's single-use oneshot result channel
(`async_oneshot`): nothing sent yet, a value sent, or the receiving half
dropped by its caller. -/
inductive Chan where
  | unsent
  | sent (r : Except Nat Nat)
  | rxDropped
deriving DecidableEq, Repr

/-- Final outcome of one caller's `AQueue::push`: the push onto the store
failed (line 75), `run_ing` returned an error that the `?` of line 81
propagated, or the task's own `Result` value obtained from `rx.await`
(line 82). -/
inductive Outcome where
  | pushFailed
  | engineErr
  | result (r : Except Nat Nat)
deriving DecidableEq, Repr

/-- Program counter of one caller inside `AQueue::push` / `AQueue::run_ing`.
Each constructor is immediately before the atomic operation it is named
after; see the file header for the line-by-line correspondence. -/
inductive PC where
  | atPush
  | atSpin
  | atCas
  | atDrainLock
  | atPop
  | atClear (t : Nat)
  | atExec (t : Nat)
  | atSetStateIdle
  | atSetLockIdle
  | atAwaitRx
  | done (o : Outcome)
  | cancelled
deriving DecidableEq, Repr

/-- The shared engine: the struct `AQueue` of lines 20-24 (`deque`, `state`,
`lock`), plus the closed flag of the `ConcurrentQueue` (the store rejects
pushes iff it has been closed; it is unbounded, so it never rejects for
capacity).  The deque holds task identifiers; task `i` is the task submitted
by caller `i`. -/
structure AQueue where
  deque : List Nat
  state : Nat
  lock : Nat
  closed : Bool
deriving DecidableEq, Repr

/-- Global configuration: the shared engine, each caller's program counter,
each task's result channel, each task's fixed computation result, and three
history variables (`pushed`/`popped`/`sentL`: identifiers in push order, pop
order, and successful-delivery order; never read by any step). -/
structure Config where
  q : AQueue
  pcs : List PC
  chans : List Chan
  tasks : List (Except Nat Nat)
  pushed : List Nat
  popped : List Nat
  sentL : List Nat
deriving DecidableEq, Repr

/-- Program counter of caller `i` (out-of-range callers are inert). -/
def pcOf (c : Config) (i : Nat) : PC := c.pcs.getD i .cancelled

/-- Channel of task `i`. -/
def chanOf (c : Config) (i : Nat) : Chan := c.chans.getD i .unsent

/-- What happens to a single-use channel when its receiving half is dropped:
an unsent channel becomes abandoned; a sent value stays readable. -/
def dropRx : Chan → Chan
  | .unsent => .rxDropped
  | x => x

/-- Modelled from the spec: the Task Wrapper (`QueueItem`).  Its file
`src/queue/item.rs` is declared by `mod item` in `src/queue/mod.rs` but is
not among the provided sources.  Per spec section 4.1: driving the runnable
runs the computation to completion, captures its result (success value or
domain error, as a value), sends it once through the paired channel, and
resolves with a unit outcome; if the send fails because the receiver was
already abandoned, the wrapper's own completion reports that as an error for
the engine to observe.  `driveItem res ch` returns the new channel state and
whether the wrapper's completion (`item.await` at line 97) was `Ok`. -/
def driveItem (res : Except Nat Nat) (ch : Chan) : Chan × Bool :=
  match ch with
  | .rxDropped => (.rxDropped, false)
  | _ => (.sent res, true)

/-- One atomic step of caller `i` (lines 74-104 of `src/queue/mod.rs`; see
the file header for the correspondence of each case). -/
def stepThread (c : Config) (i : Nat) : Config :=
  match c.pcs.getD i PC.cancelled with
  | .atPush =>
      if c.q.closed then
        { c with pcs := c.pcs.set i (.done .pushFailed) }
      else
        { c with q := { c.q with deque := c.q.deque ++ [i] },
                 pcs := c.pcs.set i .atSpin,
                 pushed := c.pushed ++ [i] }
  | .atSpin =>
      if c.q.lock = OPEN then c
      else { c with pcs := c.pcs.set i .atCas }
  | .atCas =>
      if c.q.state = IDLE then
        { c with q := { c.q with state := OPEN },
                 pcs := c.pcs.set i .atDrainLock }
      else
        { c with pcs := c.pcs.set i .atAwaitRx }
  | .atDrainLock =>
      { c with q := { c.q with lock := OPEN }, pcs := c.pcs.set i .atPop }
  | .atPop =>
      match c.q.deque with
      | [] => { c with pcs := c.pcs.set i .atSetStateIdle }
      | t :: rest =>
          { c with q := { c.q with deque := rest },
                   pcs := c.pcs.set i (.atClear t),
                   popped := c.popped ++ [t] }
  | .atClear t =>
      { c with q := { c.q with lock := IDLE }, pcs := c.pcs.set i (.atExec t) }
  | .atExec t =>
      match driveItem (c.tasks.getD t (.ok 0)) (c.chans.getD t .unsent) with
      | (ch, true) =>
          { c with chans := c.chans.set t ch,
                   pcs := c.pcs.set i .atDrainLock,
                   sentL := c.sentL ++ [t] }
      | (_, false) =>
          { c with pcs := c.pcs.set i (.done .engineErr),
                   chans := c.chans.set i (dropRx (c.chans.getD i .unsent)) }
  | .atSetStateIdle =>
      { c with q := { c.q with state := IDLE }, pcs := c.pcs.set i .atSetLockIdle }
  | .atSetLockIdle =>
      { c with q := { c.q with lock := IDLE }, pcs := c.pcs.set i .atAwaitRx }
  | .atAwaitRx =>
      match c.chans.getD i .unsent with
      | .sent r => { c with pcs := c.pcs.set i (.done (.result r)) }
      | _ => c
  | .done _ => c
  | .cancelled => c

/-- Caller `i` abandons its receiver: its `push` future is dropped while
parked on `rx.await`, so the receiving half of its channel is dropped. -/
def cancelThread (c : Config) (i : Nat) : Config :=
  match c.pcs.getD i PC.cancelled with
  | .atAwaitRx =>
      { c with pcs := c.pcs.set i .cancelled,
               chans := c.chans.set i (dropRx (c.chans.getD i .unsent)) }
  | _ => c

/-- A scheduling decision: let caller `i` take its next atomic step, or drop
caller `i`'s future while it awaits its receiver. -/
inductive Action where
  | act (i : Nat)
  | cancel (i : Nat)
deriving DecidableEq, Repr

/-- One step of the whole system under a scheduling decision. -/
def step (c : Config) : Action → Config
  | .act i => stepThread c i
  | .cancel i => cancelThread c i

/-- Execute a whole schedule. -/
def run (c : Config) (sched : List Action) : Config := sched.foldl step c

/-- A freshly constructed engine (`AQueue::new` / `Default`, lines 29-42):
empty unbounded store, both flags `IDLE`, `n` callers each about to submit
the task with result `tasks[i]`.  `closed` is the state of the underlying
`ConcurrentQueue` (never closed by any engine operation). -/
def init (tasks : List (Except Nat Nat)) (closed : Bool) : Config :=
  { q := { deque := [], state := IDLE, lock := IDLE, closed := closed },
    pcs := List.replicate tasks.length .atPush,
    chans := List.replicate tasks.length .unsent,
    tasks := tasks,
    pushed := [], popped := [], sentL := [] }

/-- Program counters strictly inside the drain loop of lines 88-98. -/
def inDrainBody : PC → Bool
  | .atDrainLock | .atPop | .atClear _ | .atExec _ => true
  | _ => false

/-- Program counters owning the `state = OPEN` election: the drain loop plus
the instant before the `state.store(IDLE)` of line 100. -/
def inLoop : PC → Bool
  | .atDrainLock | .atPop | .atClear _ | .atExec _ | .atSetStateIdle => true
  | _ => false

/-- Program counters at which the caller has set `lock = OPEN` and not yet
stored `IDLE` to it (between line 90 and line 96, or between line 90 and
line 101 on the empty-pop break). -/
def inLockOpen : PC → Bool
  | .atPop | .atClear _ | .atSetStateIdle | .atSetLockIdle => true
  | _ => false

/-- The task currently held by a caller between its pop and the completion
of driving it. -/
def holdTask : PC → Option Nat
  | .atClear t | .atExec t => some t
  | _ => none

/-- Some caller has returned the drain-loop error (`item.await` was `Err`,
propagated by lines 97 and 81). -/
def Failed (c : Config) : Prop := ∃ i, pcOf c i = .done .engineErr

/-- No caller currently holds a popped, not-yet-completed task. -/
def NoHold (c : Config) : Prop := ∀ i, holdTask (pcOf c i) = none

/-- Relation between pop order, delivery order, and the holder: every popped
task has been delivered, except possibly the most recently popped one, which
is then either still being driven by the runner or was the delivery failure
that bricked the engine. -/
def HoldInv (c : Config) : Prop :=
  (c.popped = c.sentL ∧ NoHold c)
  ∨ (∃ t j, c.popped = c.sentL ++ [t]
        ∧ (pcOf c j = .atClear t ∨ pcOf c j = .atExec t))
  ∨ (∃ t, c.popped = c.sentL ++ [t] ∧ Failed c ∧ NoHold c)

/-- The inductive invariant of the system, established at `init` and
preserved by every step. -/
structure Inv (c : Config) : Prop where
  len_pcs : c.pcs.length = c.tasks.length
  len_chans : c.chans.length = c.tasks.length
  state01 : c.q.state = IDLE ∨ c.q.state = OPEN
  lock01 : c.q.lock = IDLE ∨ c.q.lock = OPEN
  mutex : ∀ i j, inLoop (pcOf c i) = true → inLoop (pcOf c j) = true → i = j
  idle_noloop : c.q.state = IDLE → ∀ i, inLoop (pcOf c i) = false
  open_wit : c.q.state = OPEN →
    (∃ i, inLoop (pcOf c i) = true) ∨ Failed c
  lock_wit : c.q.lock = OPEN → ∃ i, inLockOpen (pcOf c i) = true
  push_decomp : c.pushed = c.popped ++ c.q.deque
  pushed_lt : ∀ j ∈ c.pushed, j < c.tasks.length
  pushed_new : ∀ i, pcOf c i = .atPush → i ∉ c.pushed
  pushed_nodup : c.pushed.Nodup
  hold_decomp : HoldInv c
  failed_stuck : Failed c →
    (∀ i, inLoop (pcOf c i) = false) ∧ c.q.state = OPEN
  chan_coh : ∀ i r, chanOf c i = .sent r →
    r = c.tasks.getD i (.ok 0) ∧ i ∈ c.sentL
  sent_coh : ∀ i ∈ c.sentL, chanOf c i = .sent (c.tasks.getD i (.ok 0))
  done_res : ∀ i r, pcOf c i = .done (.result r) → r = c.tasks.getD i (.ok 0)

/-- Caller `i` is parked: finished, cancelled, or awaiting a channel that
holds no value. -/
def parkedAt : PC → Chan → Bool
  | .done _, _ => true
  | .cancelled, _ => true
  | .atAwaitRx, .sent _ => false
  | .atAwaitRx, _ => true
  | _, _ => false

/-- Every caller is parked: from such a configuration no step ever changes
the engine again (only further cancellations can alter caller states). -/
def Parked (c : Config) : Prop :=
  ∀ i < c.pcs.length, parkedAt (pcOf c i) (chanOf c i) = true

/-- Caller `i`'s receiver can never resolve from `c` on: under every
continuation schedule, caller `i` never reaches any final outcome. -/
def NeverResolves (c : Config) (i : Nat) : Prop :=
  ∀ sched o, pcOf (run c sched) i ≠ .done o

/-- No task is ever driven to completion from `c` on: under every
continuation schedule the successful-delivery history stays as it is. -/
def SendsFrozen (c : Config) : Prop :=
  ∀ sched, (run c sched).sentL = c.sentL

/-- Whether a scheduling decision abandons a receiver. -/
def isCancel : Action → Bool
  | .cancel _ => true
  | .act _ => false

/-- A schedule containing no receiver abandonment. -/
def NoCancel (sched : List Action) : Prop :=
  ∀ a ∈ sched, isCancel a = false

/-- Three tasks, all plain successes. -/
def tasks3 : List (Except Nat Nat) := [.ok 10, .ok 20, .ok 30]

/-- Lost-wakeup interleaving (three callers, no cancellation): caller 0
drains its own and caller 1's task and begins its exit sequence; caller 1,
which had already observed `lock = IDLE` earlier, wins the election right
between caller 0's `state.store(IDLE)` (line 100) and `lock.store(IDLE)`
(line 101); caller 0's late line-101 store then clears the lock flag while
caller 1 is mid pop cycle; caller 1 finds the store empty; caller 2 now
pushes, sees `lock = IDLE`, loses the election to caller 1 (state still
`OPEN`), and parks on its receiver; caller 1 exits.  Caller 2's task is left
in the store with nobody to ever drain it. -/
def lwTrace : List Action :=
  [.act 0, .act 0, .act 0,
   .act 1, .act 1,
   .act 0, .act 0, .act 0, .act 0,
   .act 0, .act 0, .act 0, .act 0,
   .act 0, .act 0,
   .act 0,
   .act 1,
   .act 1,
   .act 0,
   .act 1,
   .act 2, .act 2, .act 2,
   .act 1, .act 1,
   .act 0, .act 1]

/-- The configuration reached by the lost-wakeup interleaving. -/
def lwConfig : Config := run (init tasks3 false) lwTrace

/-- Interleaving reaching a delivery failure inside the drain loop: caller 0
is the runner; caller 1 loses the election, parks on its receiver and then
abandons it; caller 2 loses the election and parks; caller 0 delivers its own
task, then pops caller 1's task and is about to drive it (whose send will
fail). -/
def failTrace : List Action :=
  [.act 0, .act 1, .act 2,
   .act 1, .act 2, .act 0,
   .act 0,
   .act 1, .act 2,
   .cancel 1,
   .act 0, .act 0, .act 0, .act 0,
   .act 0, .act 0, .act 0]

/-- The configuration with caller 0 about to drive caller 1's task, whose
receiver has been abandoned. -/
def failConfig : Config := run (init tasks3 false) failTrace

/-- The configuration right after the failing drive: caller 0 returned the
engine error, the state flag is stuck at `OPEN`, caller 2's task sits
undrained in the store. -/
def brickConfig : Config := run (init tasks3 false) (failTrace ++ [.act 0])

/-- Interleaving in which caller 1 exits its busy-wait while the in-flight
flag is `IDLE`, after which runner 0 sets the flag `OPEN` again (line 90):
caller 1 is now about to execute the compare-and-swap while the in-flight
flag is true. -/
def toctouTrace : List Action :=
  [.act 0, .act 0, .act 0,
   .act 1, .act 1,
   .act 0]

/-- The configuration with caller 1 poised on the compare-and-swap while the
in-flight flag is `OPEN`. -/
def toctouConfig : Config := run (init tasks3 false) toctouTrace

/-- A single caller driving its own submission to completion: push, spin,
election, drain (its own task, then the empty check), exit, await. -/
def soloTrace : List Action := List.replicate 12 (Action.act 0)

/-- A single caller stopped right before driving its own popped task. -/
def toExecTrace : List Action := List.replicate 6 (Action.act 0)

/-- Two callers: 0 pushes first, wins the election and drains both tasks in
push order; 1 pushes second, loses the election and receives its result. -/
def pairTrace : List Action :=
  [.act 0, .act 1, .act 1, .act 0, .act 0, .act 1,
   .act 0, .act 0, .act 0, .act 0,
   .act 0, .act 0, .act 0, .act 0,
   .act 0, .act 0, .act 0, .act 0,
   .act 0, .act 1]

/-! ### Elementary list lemmas used throughout -/

theorem getD_set_eq {α : Type} (l : List α) (i : Nat) (v d : α)
    (h : i < l.length) : (l.set i v).getD i d = v := by
  simp [List.getD_eq_getElem?_getD, List.getElem?_set_self', h]

theorem getD_set_ne {α : Type} (l : List α) {i j : Nat} (h : i ≠ j)
    (v d : α) : (l.set i v).getD j d = l.getD j d := by
  simp [List.getD_eq_getElem?_getD, List.getElem?_set_ne h]

theorem getD_of_le {α : Type} (l : List α) {i : Nat} (d : α)
    (h : l.length ≤ i) : l.getD i d = d := by
  simp [List.getD_eq_getElem?_getD, List.getElem?_eq_none h]

theorem getD_replicate_lt {α : Type} (n i : Nat) (v d : α) (h : i < n) :
    (List.replicate n v).getD i d = v := by
  simp [List.getD_eq_getElem?_getD, List.getElem?_replicate, h]

/-! ### Program-counter and channel access -/

theorem pcOf_lt {c : Config} {i : Nat} (h : pcOf c i ≠ .cancelled) :
    i < c.pcs.length := by
  by_contra hn
  push_neg at hn
  exact h (getD_of_le c.pcs .cancelled hn)

theorem chanOf_lt {c : Config} {i : Nat} (h : chanOf c i ≠ .unsent) :
    i < c.chans.length := by
  by_contra hn
  push_neg at hn
  exact h (getD_of_le c.chans .unsent hn)

/-! ### Step equations: one lemma per source operation -/

theorem step_push_closed {c : Config} {i : Nat}
    (hpc : pcOf c i = .atPush) (hcl : c.q.closed = true) :
    stepThread c i = { c with pcs := c.pcs.set i (.done .pushFailed) } := by
  rw [pcOf] at hpc
  simp only [stepThread, hpc]
  simp [hcl]

theorem step_push_ok {c : Config} {i : Nat}
    (hpc : pcOf c i = .atPush) (hcl : c.q.closed = false) :
    stepThread c i =
      { c with q := { c.q with deque := c.q.deque ++ [i] },
               pcs := c.pcs.set i .atSpin,
               pushed := c.pushed ++ [i] } := by
  rw [pcOf] at hpc
  simp only [stepThread, hpc]
  simp [hcl]

theorem step_spin_busy {c : Config} {i : Nat}
    (hpc : pcOf c i = .atSpin) (hl : c.q.lock = OPEN) :
    stepThread c i = c := by
  rw [pcOf] at hpc
  simp only [stepThread, hpc]
  simp [hl]

theorem step_spin_pass {c : Config} {i : Nat}
    (hpc : pcOf c i = .atSpin) (hl : c.q.lock ≠ OPEN) :
    stepThread c i = { c with pcs := c.pcs.set i .atCas } := by
  rw [pcOf] at hpc
  simp only [stepThread, hpc]
  simp [hl]

theorem step_cas_win {c : Config} {i : Nat}
    (hpc : pcOf c i = .atCas) (hs : c.q.state = IDLE) :
    stepThread c i =
      { c with q := { c.q with state := OPEN },
               pcs := c.pcs.set i .atDrainLock } := by
  rw [pcOf] at hpc
  simp only [stepThread, hpc]
  simp [hs]

theorem step_cas_lose {c : Config} {i : Nat}
    (hpc : pcOf c i = .atCas) (hs : c.q.state ≠ IDLE) :
    stepThread c i = { c with pcs := c.pcs.set i .atAwaitRx } := by
  rw [pcOf] at hpc
  simp only [stepThread, hpc]
  simp [hs]

theorem step_drainLock {c : Config} {i : Nat}
    (hpc : pcOf c i = .atDrainLock) :
    stepThread c i =
      { c with q := { c.q with lock := OPEN }, pcs := c.pcs.set i .atPop } := by
  rw [pcOf] at hpc
  simp only [stepThread, hpc]

theorem step_pop_empty {c : Config} {i : Nat}
    (hpc : pcOf c i = .atPop) (hd : c.q.deque = []) :
    stepThread c i = { c with pcs := c.pcs.set i .atSetStateIdle } := by
  rw [pcOf] at hpc
  simp only [stepThread, hpc, hd]

theorem step_pop_cons {c : Config} {i t : Nat} {rest : List Nat}
    (hpc : pcOf c i = .atPop) (hd : c.q.deque = t :: rest) :
    stepThread c i =
      { c with q := { c.q with deque := rest },
               pcs := c.pcs.set i (.atClear t),
               popped := c.popped ++ [t] } := by
  rw [pcOf] at hpc
  simp only [stepThread, hpc, hd]

theorem step_clear {c : Config} {i t : Nat}
    (hpc : pcOf c i = .atClear t) :
    stepThread c i =
      { c with q := { c.q with lock := IDLE },
               pcs := c.pcs.set i (.atExec t) } := by
  rw [pcOf] at hpc
  simp only [stepThread, hpc]

theorem step_exec_send {c : Config} {i t : Nat}
    (hpc : pcOf c i = .atExec t) (hch : chanOf c t ≠ .rxDropped) :
    stepThread c i =
      { c with chans := c.chans.set t (.sent (c.tasks.getD t (.ok 0))),
               pcs := c.pcs.set i .atDrainLock,
               sentL := c.sentL ++ [t] } := by
  rw [pcOf] at hpc
  rw [chanOf] at hch
  cases hc : c.chans.getD t .unsent
  · simp only [stepThread, hpc, hc, driveItem]
  · simp only [stepThread, hpc, hc, driveItem]
  · exact absurd hc hch

theorem step_exec_fail {c : Config} {i t : Nat}
    (hpc : pcOf c i = .atExec t) (hch : chanOf c t = .rxDropped) :
    stepThread c i =
      { c with pcs := c.pcs.set i (.done .engineErr),
               chans := c.chans.set i (dropRx (c.chans.getD i .unsent)) } := by
  rw [pcOf] at hpc
  rw [chanOf] at hch
  simp only [stepThread, hpc, hch, driveItem]

theorem step_setState {c : Config} {i : Nat}
    (hpc : pcOf c i = .atSetStateIdle) :
    stepThread c i =
      { c with q := { c.q with state := IDLE },
               pcs := c.pcs.set i .atSetLockIdle } := by
  rw [pcOf] at hpc
  simp only [stepThread, hpc]

theorem step_setLock {c : Config} {i : Nat}
    (hpc : pcOf c i = .atSetLockIdle) :
    stepThread c i =
      { c with q := { c.q with lock := IDLE },
               pcs := c.pcs.set i .atAwaitRx } := by
  rw [pcOf] at hpc
  simp only [stepThread, hpc]

theorem step_await_sent {c : Config} {i : Nat} {r : Except Nat Nat}
    (hpc : pcOf c i = .atAwaitRx) (hch : chanOf c i = .sent r) :
    stepThread c i = { c with pcs := c.pcs.set i (.done (.result r)) } := by
  rw [pcOf] at hpc
  rw [chanOf] at hch
  simp only [stepThread, hpc, hch]

theorem step_await_blocked {c : Config} {i : Nat}
    (hpc : pcOf c i = .atAwaitRx) (hch : ∀ r, chanOf c i ≠ .sent r) :
    stepThread c i = c := by
  rw [pcOf] at hpc
  cases hc : c.chans.getD i .unsent <;> simp only [stepThread, hpc, hc]
  exact absurd (by rw [chanOf, hc]) (hch _)

theorem step_done {c : Config} {i : Nat} {o : Outcome}
    (hpc : pcOf c i = .done o) : stepThread c i = c := by
  rw [pcOf] at hpc
  simp only [stepThread, hpc]

theorem step_cancelled {c : Config} {i : Nat}
    (hpc : pcOf c i = .cancelled) : stepThread c i = c := by
  rw [pcOf] at hpc
  simp only [stepThread, hpc]

theorem cancel_await {c : Config} {i : Nat}
    (hpc : pcOf c i = .atAwaitRx) :
    cancelThread c i =
      { c with pcs := c.pcs.set i .cancelled,
               chans := c.chans.set i (dropRx (c.chans.getD i .unsent)) } := by
  rw [pcOf] at hpc
  simp only [cancelThread, hpc]

theorem cancel_other {c : Config} {i : Nat}
    (hpc : pcOf c i ≠ .atAwaitRx) : cancelThread c i = c := by
  rw [pcOf] at hpc
  cases hc : c.pcs.getD i PC.cancelled <;> simp only [cancelThread, hc]
  exact absurd hc hpc

/-! ### Run concatenation -/

theorem run_nil (c : Config) : run c [] = c := rfl

theorem run_cons (c : Config) (a : Action) (s : List Action) :
    run c (a :: s) = run (step c a) s := rfl

theorem run_append (c : Config) (s1 s2 : List Action) :
    run c (s1 ++ s2) = run (run c s1) s2 := by
  simp [run, List.foldl_append]

/-! ### Parked configurations are inert -/

theorem parked_inert {c : Config} {i : Nat} (h : Parked c)
    (hi : i < c.pcs.length) : stepThread c i = c := by
  have hp := h i hi
  cases hpc : pcOf c i with
  | atPush => rw [hpc] at hp; simp [parkedAt] at hp
  | atSpin => rw [hpc] at hp; simp [parkedAt] at hp
  | atCas => rw [hpc] at hp; simp [parkedAt] at hp
  | atDrainLock => rw [hpc] at hp; simp [parkedAt] at hp
  | atPop => rw [hpc] at hp; simp [parkedAt] at hp
  | atClear t => rw [hpc] at hp; simp [parkedAt] at hp
  | atExec t => rw [hpc] at hp; simp [parkedAt] at hp
  | atSetStateIdle => rw [hpc] at hp; simp [parkedAt] at hp
  | atSetLockIdle => rw [hpc] at hp; simp [parkedAt] at hp
  | atAwaitRx =>
      refine step_await_blocked hpc fun r hr => ?_
      rw [hpc, hr] at hp
      simp [parkedAt] at hp
  | done o => exact step_done hpc
  | cancelled => exact step_cancelled hpc

theorem parked_step {c : Config} (h : Parked c) (a : Action) :
    Parked (step c a) ∧ (step c a).q = c.q ∧ (step c a).sentL = c.sentL ∧
    (step c a).popped = c.popped ∧ (step c a).pushed = c.pushed ∧
    (step c a).tasks = c.tasks ∧
    ∀ i, pcOf (step c a) i = pcOf c i ∨ pcOf (step c a) i = .cancelled := by
  cases a with
  | act i =>
      have hs : step c (.act i) = c := by
        show stepThread c i = c
        by_cases hi : i < c.pcs.length
        · exact parked_inert h hi
        · exact step_cancelled (getD_of_le _ _ (Nat.le_of_not_lt hi))
      rw [hs]
      exact ⟨h, rfl, rfl, rfl, rfl, rfl, fun _ => Or.inl rfl⟩
  | cancel i =>
      by_cases hpc : pcOf c i = .atAwaitRx
      · have hlt : i < c.pcs.length := pcOf_lt (by rw [hpc]; simp)
        have hs : step c (.cancel i) =
            { c with pcs := c.pcs.set i .cancelled,
                     chans := c.chans.set i (dropRx (c.chans.getD i .unsent)) } :=
          cancel_await hpc
        rw [hs]
        refine ⟨?_, rfl, rfl, rfl, rfl, rfl, fun j => ?_⟩
        · intro j hj
          simp only [List.length_set] at hj
          rcases eq_or_ne i j with rfl | hne
          · show parkedAt ((c.pcs.set i PC.cancelled).getD i .cancelled) _ = true
            rw [getD_set_eq c.pcs i PC.cancelled PC.cancelled hlt]
            rfl
          · show parkedAt ((c.pcs.set i PC.cancelled).getD j .cancelled)
              ((c.chans.set i (dropRx (c.chans.getD i .unsent))).getD j .unsent) = true
            rw [getD_set_ne c.pcs hne, getD_set_ne c.chans hne]
            exact h j hj
        · rcases eq_or_ne i j with rfl | hne
          · exact Or.inr (getD_set_eq c.pcs i PC.cancelled PC.cancelled hlt)
          · exact Or.inl (getD_set_ne c.pcs hne PC.cancelled PC.cancelled)
      · have hs : step c (.cancel i) = c := cancel_other hpc
        rw [hs]
        exact ⟨h, rfl, rfl, rfl, rfl, rfl, fun _ => Or.inl rfl⟩

theorem parked_run {c : Config} (h : Parked c) (sched : List Action) :
    Parked (run c sched) ∧ (run c sched).q = c.q ∧ (run c sched).sentL = c.sentL ∧
    (run c sched).popped = c.popped ∧ (run c sched).pushed = c.pushed ∧
    (run c sched).tasks = c.tasks ∧
    ∀ i, pcOf (run c sched) i = pcOf c i ∨ pcOf (run c sched) i = .cancelled := by
  induction sched generalizing c with
  | nil => exact ⟨h, rfl, rfl, rfl, rfl, rfl, fun _ => Or.inl rfl⟩
  | cons a s ih =>
      obtain ⟨h1, hq, hsent, hpop, hpush, htasks, hpc⟩ := parked_step h a
      obtain ⟨g1, gq, gsent, gpop, gpush, gtasks, gpc⟩ := ih h1
      rw [run_cons]
      refine ⟨g1, by rw [gq, hq], by rw [gsent, hsent], by rw [gpop, hpop],
              by rw [gpush, hpush], by rw [gtasks, htasks], fun i => ?_⟩
      rcases gpc i with hg | hg
      · rcases hpc i with hh | hh
        · exact Or.inl (hg.trans hh)
        · exact Or.inr (hg.trans hh)
      · exact Or.inr hg

/-! ### Facts derived from the invariant -/

theorem inLoop_of_holdTask {p : PC} {u : Nat} (h : holdTask p = some u) :
    inLoop p = true := by
  cases p <;> first | rfl | exact Option.noConfusion h

theorem state_open_of_loop {c : Config} (h : Inv c) {i : Nat}
    (hi : inLoop (pcOf c i) = true) : c.q.state = OPEN := by
  rcases h.state01 with hs | hs
  · exact Bool.noConfusion ((h.idle_noloop hs i).symm.trans hi)
  · exact hs

theorem only_holder {c : Config} (h : Inv c) {i j : Nat}
    (hiL : inLoop (pcOf c i) = true) (hji : j ≠ i) :
    holdTask (pcOf c j) = none := by
  cases hh : holdTask (pcOf c j) with
  | none => rfl
  | some u => exact absurd (h.mutex j i (inLoop_of_holdTask hh) hiL) hji

theorem holder_decomp {c : Config} (h : Inv c) {i t : Nat}
    (hi : pcOf c i = .atClear t ∨ pcOf c i = .atExec t) :
    c.popped = c.sentL ++ [t] := by
  have hiL : inLoop (pcOf c i) = true := by rcases hi with hi | hi <;> rw [hi] <;> rfl
  have hih : holdTask (pcOf c i) = some t := by rcases hi with hi | hi <;> rw [hi] <;> rfl
  rcases h.hold_decomp with ⟨_, hnh⟩ | ⟨t', j, he, hj⟩ | ⟨_, _, hf, _⟩
  · exact Option.noConfusion ((hnh i).symm.trans hih)
  · have hj' : holdTask (pcOf c j) = some t' := by rcases hj with hj | hj <;> rw [hj] <;> rfl
    have hji : j = i := h.mutex j i (inLoop_of_holdTask hj') hiL
    subst hji
    have : some t = some t' := hih.symm.trans hj'
    have htt : t = t' := by injection this
    rw [htt]
    exact he
  · exact Bool.noConfusion (((h.failed_stuck hf).1 i).symm.trans hiL)

theorem popped_nodup {c : Config} (h : Inv c) : c.popped.Nodup := by
  have hnd := h.pushed_nodup
  rw [h.push_decomp] at hnd
  exact hnd.of_append_left

theorem holder_not_sent {c : Config} (h : Inv c) {t : Nat}
    (he : c.popped = c.sentL ++ [t]) : t ∉ c.sentL := by
  have hnd := popped_nodup h
  rw [he, List.nodup_append] at hnd
  intro hmem
  exact hnd.2.2 hmem (by simp)

theorem holder_lt {c : Config} (h : Inv c) {t : Nat}
    (he : c.popped = c.sentL ++ [t]) : t < c.tasks.length := by
  apply h.pushed_lt
  rw [h.push_decomp, he]
  simp

/-! ### Invariant preservation, case by case -/

theorem inv_set_pc {c : Config} {i : Nat} {v : PC} (h : Inv c)
    (hlt : i < c.pcs.length)
    (ho1 : inLoop (pcOf c i) = false) (ho2 : inLockOpen (pcOf c i) = false)
    (ho3 : holdTask (pcOf c i) = none) (ho4 : pcOf c i ≠ .done .engineErr)
    (hv1 : inLoop v = false)
    (hv3 : holdTask v = none) (hv4 : v ≠ .done .engineErr)
    (hv5 : v ≠ .atPush)
    (hv6 : ∀ r, v = .done (.result r) → r = c.tasks.getD i (.ok 0)) :
    Inv { c with pcs := c.pcs.set i v } := by
  have hpi : pcOf { c with pcs := c.pcs.set i v } i = v :=
    getD_set_eq c.pcs i v .cancelled hlt
  have hpj : ∀ j, j ≠ i → pcOf { c with pcs := c.pcs.set i v } j = pcOf c j :=
    fun j hj => getD_set_ne c.pcs (Ne.symm hj) v .cancelled
  refine
    { len_pcs := ?_, len_chans := h.len_chans
      state01 := h.state01, lock01 := h.lock01
      mutex := ?_, idle_noloop := ?_, open_wit := ?_, lock_wit := ?_
      push_decomp := h.push_decomp, pushed_lt := h.pushed_lt
      pushed_new := ?_, pushed_nodup := h.pushed_nodup
      hold_decomp := ?_, failed_stuck := ?_
      chan_coh := h.chan_coh, sent_coh := h.sent_coh, done_res := ?_ }
  · show (c.pcs.set i v).length = c.tasks.length
    rw [List.length_set]
    exact h.len_pcs
  · intro j k hj hk
    have hj' : inLoop (pcOf c j) = true := by
      rcases eq_or_ne j i with rfl | hne
      · rw [hpi] at hj
        exact Bool.noConfusion (hv1.symm.trans hj)
      · rwa [hpj j hne] at hj
    have hk' : inLoop (pcOf c k) = true := by
      rcases eq_or_ne k i with rfl | hne
      · rw [hpi] at hk
        exact Bool.noConfusion (hv1.symm.trans hk)
      · rwa [hpj k hne] at hk
    exact h.mutex j k hj' hk'
  · intro hs j
    rcases eq_or_ne j i with rfl | hne
    · rw [hpi]
      exact hv1
    · rw [hpj j hne]
      exact h.idle_noloop hs j
  · intro hs
    rcases h.open_wit hs with ⟨j, hj⟩ | hf
    · left
      have hne : j ≠ i := by
        rintro rfl
        exact Bool.noConfusion (ho1.symm.trans hj)
      exact ⟨j, by rw [hpj j hne]; exact hj⟩
    · right
      obtain ⟨j, hj⟩ := hf
      have hne : j ≠ i := by rintro rfl; exact ho4 hj
      exact ⟨j, by rw [hpj j hne]; exact hj⟩
  · intro hs
    obtain ⟨j, hj⟩ := h.lock_wit hs
    have hne : j ≠ i := by
      rintro rfl
      exact Bool.noConfusion (ho2.symm.trans hj)
    exact ⟨j, by rw [hpj j hne]; exact hj⟩
  · intro j hj
    rcases eq_or_ne j i with rfl | hne
    · rw [hpi] at hj
      exact absurd hj hv5
    · rw [hpj j hne] at hj
      exact h.pushed_new j hj
  · rcases h.hold_decomp with ⟨he, hnh⟩ | ⟨t, j, he, hj⟩ | ⟨t, he, hf, hnh⟩
    · left
      refine ⟨he, fun j => ?_⟩
      rcases eq_or_ne j i with rfl | hne
      · rw [hpi]; exact hv3
      · rw [hpj j hne]; exact hnh j
    · right; left
      have hne : j ≠ i := by
        rintro rfl
        rcases hj with hj | hj <;> rw [hj] at ho3 <;> exact Option.noConfusion ho3
      exact ⟨t, j, he, by rw [hpj j hne]; exact hj⟩
    · right; right
      refine ⟨t, he, ?_, fun j => ?_⟩
      · obtain ⟨k, hk⟩ := hf
        have hne : k ≠ i := by rintro rfl; exact ho4 hk
        exact ⟨k, by rw [hpj k hne]; exact hk⟩
      · rcases eq_or_ne j i with rfl | hne
        · rw [hpi]; exact hv3
        · rw [hpj j hne]; exact hnh j
  · intro hf
    obtain ⟨k, hk⟩ := hf
    have hne : k ≠ i := by
      rintro rfl
      rw [hpi] at hk
      exact hv4 hk
    rw [hpj k hne] at hk
    obtain ⟨hnl, hst⟩ := h.failed_stuck ⟨k, hk⟩
    refine ⟨fun j => ?_, hst⟩
    rcases eq_or_ne j i with rfl | hne2
    · rw [hpi]; exact hv1
    · rw [hpj j hne2]; exact hnl j
  · intro j r hj
    rcases eq_or_ne j i with rfl | hne
    · rw [hpi] at hj
      exact hv6 r hj
    · rw [hpj j hne] at hj
      exact h.done_res j r hj

theorem inv_push_ok {c : Config} {i : Nat} (h : Inv c) (hpc : pcOf c i = .atPush) :
    Inv { c with q := { c.q with deque := c.q.deque ++ [i] },
                 pcs := c.pcs.set i .atSpin,
                 pushed := c.pushed ++ [i] } := by
  have hlt : i < c.pcs.length := pcOf_lt (by simp [hpc])
  have hpi : pcOf
      { c with q := { c.q with deque := c.q.deque ++ [i] },
               pcs := c.pcs.set i .atSpin, pushed := c.pushed ++ [i] } i = .atSpin :=
    getD_set_eq c.pcs i .atSpin .cancelled hlt
  have hpj : ∀ j, j ≠ i → pcOf
      { c with q := { c.q with deque := c.q.deque ++ [i] },
               pcs := c.pcs.set i .atSpin, pushed := c.pushed ++ [i] } j = pcOf c j :=
    fun j hj => getD_set_ne c.pcs (Ne.symm hj) .atSpin .cancelled
  have hinot : i ∉ c.pushed := h.pushed_new i hpc
  refine
    { len_pcs := ?_, len_chans := h.len_chans,
      state01 := h.state01, lock01 := h.lock01,
      mutex := ?_, idle_noloop := ?_, open_wit := ?_, lock_wit := ?_,
      push_decomp := ?_, pushed_lt := ?_, pushed_new := ?_, pushed_nodup := ?_,
      hold_decomp := ?_, failed_stuck := ?_,
      chan_coh := h.chan_coh, sent_coh := h.sent_coh, done_res := ?_ }
  · show (c.pcs.set i PC.atSpin).length = c.tasks.length
    rw [List.length_set]
    exact h.len_pcs
  · intro j k hj hk
    have hj' : inLoop (pcOf c j) = true := by
      rcases eq_or_ne j i with rfl | hne
      · rw [hpi] at hj; exact Bool.noConfusion hj
      · rwa [hpj j hne] at hj
    have hk' : inLoop (pcOf c k) = true := by
      rcases eq_or_ne k i with rfl | hne
      · rw [hpi] at hk; exact Bool.noConfusion hk
      · rwa [hpj k hne] at hk
    exact h.mutex j k hj' hk'
  · intro hs j
    rcases eq_or_ne j i with rfl | hne
    · rw [hpi]; rfl
    · rw [hpj j hne]; exact h.idle_noloop hs j
  · intro hs
    rcases h.open_wit hs with ⟨j, hj⟩ | ⟨j, hj⟩
    · left
      have hne : j ≠ i := by rintro rfl; rw [hpc] at hj; exact Bool.noConfusion hj
      exact ⟨j, by rw [hpj j hne]; exact hj⟩
    · right
      have hne : j ≠ i := by rintro rfl; rw [hpc] at hj; exact PC.noConfusion hj
      exact ⟨j, by rw [hpj j hne]; exact hj⟩
  · intro hs
    obtain ⟨j, hj⟩ := h.lock_wit hs
    have hne : j ≠ i := by rintro rfl; rw [hpc] at hj; exact Bool.noConfusion hj
    exact ⟨j, by rw [hpj j hne]; exact hj⟩
  · show c.pushed ++ [i] = c.popped ++ (c.q.deque ++ [i])
    rw [h.push_decomp, List.append_assoc]
  · intro j hj
    rcases List.mem_append.mp hj with hj | hj
    · exact h.pushed_lt j hj
    · have hji : j = i := by simpa using hj
      rw [hji, ← h.len_pcs]
      exact hlt
  · intro j hj
    rcases eq_or_ne j i with rfl | hne
    · rw [hpi] at hj; exact PC.noConfusion hj
    · rw [hpj j hne] at hj
      intro hmem
      rcases List.mem_append.mp hmem with hm | hm
      · exact h.pushed_new j hj hm
      · exact hne (by simpa using hm)
  · rw [List.nodup_append]
    refine ⟨h.pushed_nodup, List.nodup_singleton i, fun a ha hb => ?_⟩
    rw [show a = i by simpa using hb] at ha
    exact hinot ha
  · rcases h.hold_decomp with ⟨he, hnh⟩ | ⟨t, j, he, hj⟩ | ⟨t, he, hf, hnh⟩
    · left
      refine ⟨he, fun j => ?_⟩
      rcases eq_or_ne j i with rfl | hne
      · rw [hpi]; rfl
      · rw [hpj j hne]; exact hnh j
    · right; left
      have hne : j ≠ i := by
        rintro rfl
        rcases hj with hj | hj <;> rw [hpc] at hj <;> exact PC.noConfusion hj
      exact ⟨t, j, he, by rw [hpj j hne]; exact hj⟩
    · right; right
      refine ⟨t, he, ?_, fun j => ?_⟩
      · obtain ⟨k, hk⟩ := hf
        have hne : k ≠ i := by rintro rfl; rw [hpc] at hk; exact PC.noConfusion hk
        exact ⟨k, by rw [hpj k hne]; exact hk⟩
      · rcases eq_or_ne j i with rfl | hne
        · rw [hpi]; rfl
        · rw [hpj j hne]; exact hnh j
  · intro hf
    obtain ⟨k, hk⟩ := hf
    have hne : k ≠ i := by rintro rfl; rw [hpi] at hk; exact PC.noConfusion hk
    rw [hpj k hne] at hk
    obtain ⟨hnl, hst⟩ := h.failed_stuck ⟨k, hk⟩
    refine ⟨fun j => ?_, hst⟩
    rcases eq_or_ne j i with rfl | hne2
    · rw [hpi]; rfl
    · rw [hpj j hne2]; exact hnl j
  · intro j r hj
    rcases eq_or_ne j i with rfl | hne
    · rw [hpi] at hj; exact PC.noConfusion hj
    · rw [hpj j hne] at hj; exact h.done_res j r hj

theorem inv_cas_win {c : Config} {i : Nat} (h : Inv c) (hpc : pcOf c i = .atCas)
    (hs : c.q.state = IDLE) :
    Inv { c with q := { c.q with state := OPEN },
                 pcs := c.pcs.set i .atDrainLock } := by
  have hlt : i < c.pcs.length := pcOf_lt (by simp [hpc])
  have hpi : pcOf
      { c with q := { c.q with state := OPEN },
               pcs := c.pcs.set i .atDrainLock } i = .atDrainLock :=
    getD_set_eq c.pcs i .atDrainLock .cancelled hlt
  have hpj : ∀ j, j ≠ i → pcOf
      { c with q := { c.q with state := OPEN },
               pcs := c.pcs.set i .atDrainLock } j = pcOf c j :=
    fun j hj => getD_set_ne c.pcs (Ne.symm hj) .atDrainLock .cancelled
  have hnl := h.idle_noloop hs
  refine
    { len_pcs := ?_, len_chans := h.len_chans,
      state01 := Or.inr rfl, lock01 := h.lock01,
      mutex := ?_, idle_noloop := ?_, open_wit := ?_, lock_wit := ?_,
      push_decomp := h.push_decomp, pushed_lt := h.pushed_lt,
      pushed_new := ?_, pushed_nodup := h.pushed_nodup,
      hold_decomp := ?_, failed_stuck := ?_,
      chan_coh := h.chan_coh, sent_coh := h.sent_coh, done_res := ?_ }
  · show (c.pcs.set i PC.atDrainLock).length = c.tasks.length
    rw [List.length_set]
    exact h.len_pcs
  · intro j k hj hk
    by_cases hnej : j = i
    · by_cases hnek : k = i
      · rw [hnej, hnek]
      · rw [hpj k hnek] at hk
        exact Bool.noConfusion ((hnl k).symm.trans hk)
    · rw [hpj j hnej] at hj
      exact Bool.noConfusion ((hnl j).symm.trans hj)
  · intro hss
    exact absurd hss (by simp [OPEN, IDLE])
  · intro _
    exact Or.inl ⟨i, by rw [hpi]; rfl⟩
  · intro hlk
    have hlk2 : c.q.lock = OPEN := hlk
    obtain ⟨j, hj⟩ := h.lock_wit hlk2
    have hne : j ≠ i := by rintro rfl; rw [hpc] at hj; exact Bool.noConfusion hj
    exact ⟨j, by rw [hpj j hne]; exact hj⟩
  · intro j hj
    rcases eq_or_ne j i with rfl | hne
    · rw [hpi] at hj; exact PC.noConfusion hj
    · rw [hpj j hne] at hj; exact h.pushed_new j hj
  · rcases h.hold_decomp with ⟨he, hnh⟩ | ⟨t, j, he, hj⟩ | ⟨t, he, hf, hnh⟩
    · left
      refine ⟨he, fun j => ?_⟩
      rcases eq_or_ne j i with rfl | hne
      · rw [hpi]; rfl
      · rw [hpj j hne]; exact hnh j
    · have hj' : holdTask (pcOf c j) = some t := by
        rcases hj with hj | hj <;> rw [hj] <;> rfl
      exact Bool.noConfusion ((hnl j).symm.trans (inLoop_of_holdTask hj'))
    · have hst := (h.failed_stuck hf).2
      rw [hs] at hst
      exact absurd hst (by simp [IDLE, OPEN])
  · intro hf
    obtain ⟨k, hk⟩ := hf
    have hne : k ≠ i := by rintro rfl; rw [hpi] at hk; exact PC.noConfusion hk
    rw [hpj k hne] at hk
    have hst := (h.failed_stuck ⟨k, hk⟩).2
    rw [hs] at hst
    exact absurd hst (by simp [IDLE, OPEN])
  · intro j r hj
    rcases eq_or_ne j i with rfl | hne
    · rw [hpi] at hj; exact PC.noConfusion hj
    · rw [hpj j hne] at hj; exact h.done_res j r hj

theorem inv_drainLock {c : Config} {i : Nat} (h : Inv c)
    (hpc : pcOf c i = .atDrainLock) :
    Inv { c with q := { c.q with lock := OPEN }, pcs := c.pcs.set i .atPop } := by
  have hlt : i < c.pcs.length := pcOf_lt (by simp [hpc])
  have hiL : inLoop (pcOf c i) = true := by rw [hpc]; rfl
  have hop : c.q.state = OPEN := state_open_of_loop h hiL
  have hpi : pcOf
      { c with q := { c.q with lock := OPEN },
               pcs := c.pcs.set i .atPop } i = .atPop :=
    getD_set_eq c.pcs i .atPop .cancelled hlt
  have hpj : ∀ j, j ≠ i → pcOf
      { c with q := { c.q with lock := OPEN },
               pcs := c.pcs.set i .atPop } j = pcOf c j :=
    fun j hj => getD_set_ne c.pcs (Ne.symm hj) .atPop .cancelled
  refine
    { len_pcs := ?_, len_chans := h.len_chans,
      state01 := h.state01, lock01 := Or.inr rfl,
      mutex := ?_, idle_noloop := ?_, open_wit := ?_, lock_wit := ?_,
      push_decomp := h.push_decomp, pushed_lt := h.pushed_lt,
      pushed_new := ?_, pushed_nodup := h.pushed_nodup,
      hold_decomp := ?_, failed_stuck := ?_,
      chan_coh := h.chan_coh, sent_coh := h.sent_coh, done_res := ?_ }
  · show (c.pcs.set i PC.atPop).length = c.tasks.length
    rw [List.length_set]
    exact h.len_pcs
  · intro j k hj hk
    have hj' : inLoop (pcOf c j) = true := by
      rcases eq_or_ne j i with rfl | hne
      · exact hiL
      · rwa [hpj j hne] at hj
    have hk' : inLoop (pcOf c k) = true := by
      rcases eq_or_ne k i with rfl | hne
      · exact hiL
      · rwa [hpj k hne] at hk
    exact h.mutex j k hj' hk'
  · intro hss
    have hss2 : c.q.state = IDLE := hss
    rw [hop] at hss2
    exact absurd hss2 (by simp [OPEN, IDLE])
  · intro _
    exact Or.inl ⟨i, by rw [hpi]; rfl⟩
  · intro _
    exact ⟨i, by rw [hpi]; rfl⟩
  · intro j hj
    rcases eq_or_ne j i with rfl | hne
    · rw [hpi] at hj; exact PC.noConfusion hj
    · rw [hpj j hne] at hj; exact h.pushed_new j hj
  · rcases h.hold_decomp with ⟨he, hnh⟩ | ⟨t, j, he, hj⟩ | ⟨t, he, hf, hnh⟩
    · left
      refine ⟨he, fun j => ?_⟩
      rcases eq_or_ne j i with rfl | hne
      · rw [hpi]; rfl
      · rw [hpj j hne]; exact hnh j
    · right; left
      have hne : j ≠ i := by
        rintro rfl
        rcases hj with hj | hj <;> rw [hpc] at hj <;> exact PC.noConfusion hj
      exact ⟨t, j, he, by rw [hpj j hne]; exact hj⟩
    · exact Bool.noConfusion (((h.failed_stuck hf).1 i).symm.trans hiL)
  · intro hf
    obtain ⟨k, hk⟩ := hf
    have hne : k ≠ i := by rintro rfl; rw [hpi] at hk; exact PC.noConfusion hk
    rw [hpj k hne] at hk
    exact Bool.noConfusion (((h.failed_stuck ⟨k, hk⟩).1 i).symm.trans hiL)
  · intro j r hj
    rcases eq_or_ne j i with rfl | hne
    · rw [hpi] at hj; exact PC.noConfusion hj
    · rw [hpj j hne] at hj; exact h.done_res j r hj

theorem inv_pop_empty {c : Config} {i : Nat} (h : Inv c) (hpc : pcOf c i = .atPop) :
    Inv { c with pcs := c.pcs.set i .atSetStateIdle } := by
  have hlt : i < c.pcs.length := pcOf_lt (by simp [hpc])
  have hiL : inLoop (pcOf c i) = true := by rw [hpc]; rfl
  have hop : c.q.state = OPEN := state_open_of_loop h hiL
  have hpi : pcOf { c with pcs := c.pcs.set i .atSetStateIdle } i = .atSetStateIdle :=
    getD_set_eq c.pcs i .atSetStateIdle .cancelled hlt
  have hpj : ∀ j, j ≠ i →
      pcOf { c with pcs := c.pcs.set i .atSetStateIdle } j = pcOf c j :=
    fun j hj => getD_set_ne c.pcs (Ne.symm hj) .atSetStateIdle .cancelled
  refine
    { len_pcs := ?_, len_chans := h.len_chans,
      state01 := h.state01, lock01 := h.lock01,
      mutex := ?_, idle_noloop := ?_, open_wit := ?_, lock_wit := ?_,
      push_decomp := h.push_decomp, pushed_lt := h.pushed_lt,
      pushed_new := ?_, pushed_nodup := h.pushed_nodup,
      hold_decomp := ?_, failed_stuck := ?_,
      chan_coh := h.chan_coh, sent_coh := h.sent_coh, done_res := ?_ }
  · show (c.pcs.set i PC.atSetStateIdle).length = c.tasks.length
    rw [List.length_set]
    exact h.len_pcs
  · intro j k hj hk
    have hj' : inLoop (pcOf c j) = true := by
      rcases eq_or_ne j i with rfl | hne
      · exact hiL
      · rwa [hpj j hne] at hj
    have hk' : inLoop (pcOf c k) = true := by
      rcases eq_or_ne k i with rfl | hne
      · exact hiL
      · rwa [hpj k hne] at hk
    exact h.mutex j k hj' hk'
  · intro hss
    have hss2 : c.q.state = IDLE := hss
    rw [hop] at hss2
    exact absurd hss2 (by simp [OPEN, IDLE])
  · intro _
    exact Or.inl ⟨i, by rw [hpi]; rfl⟩
  · intro _
    exact ⟨i, by rw [hpi]; rfl⟩
  · intro j hj
    rcases eq_or_ne j i with rfl | hne
    · rw [hpi] at hj; exact PC.noConfusion hj
    · rw [hpj j hne] at hj; exact h.pushed_new j hj
  · rcases h.hold_decomp with ⟨he, hnh⟩ | ⟨t, j, he, hj⟩ | ⟨t, he, hf, hnh⟩
    · left
      refine ⟨he, fun j => ?_⟩
      rcases eq_or_ne j i with rfl | hne
      · rw [hpi]; rfl
      · rw [hpj j hne]; exact hnh j
    · right; left
      have hne : j ≠ i := by
        rintro rfl
        rcases hj with hj | hj <;> rw [hpc] at hj <;> exact PC.noConfusion hj
      exact ⟨t, j, he, by rw [hpj j hne]; exact hj⟩
    · exact Bool.noConfusion (((h.failed_stuck hf).1 i).symm.trans hiL)
  · intro hf
    obtain ⟨k, hk⟩ := hf
    have hne : k ≠ i := by rintro rfl; rw [hpi] at hk; exact PC.noConfusion hk
    rw [hpj k hne] at hk
    exact Bool.noConfusion (((h.failed_stuck ⟨k, hk⟩).1 i).symm.trans hiL)
  · intro j r hj
    rcases eq_or_ne j i with rfl | hne
    · rw [hpi] at hj; exact PC.noConfusion hj
    · rw [hpj j hne] at hj; exact h.done_res j r hj

theorem inv_pop_cons {c : Config} {i t : Nat} {rest : List Nat} (h : Inv c)
    (hpc : pcOf c i = .atPop) (hd : c.q.deque = t :: rest) :
    Inv { c with q := { c.q with deque := rest },
                 pcs := c.pcs.set i (.atClear t),
                 popped := c.popped ++ [t] } := by
  have hlt : i < c.pcs.length := pcOf_lt (by simp [hpc])
  have hiL : inLoop (pcOf c i) = true := by rw [hpc]; rfl
  have hop : c.q.state = OPEN := state_open_of_loop h hiL
  have hpi : pcOf
      { c with q := { c.q with deque := rest },
               pcs := c.pcs.set i (.atClear t),
               popped := c.popped ++ [t] } i = .atClear t :=
    getD_set_eq c.pcs i (.atClear t) .cancelled hlt
  have hpj : ∀ j, j ≠ i → pcOf
      { c with q := { c.q with deque := rest },
               pcs := c.pcs.set i (.atClear t),
               popped := c.popped ++ [t] } j = pcOf c j :=
    fun j hj => getD_set_ne c.pcs (Ne.symm hj) (.atClear t) .cancelled
  refine
    { len_pcs := ?_, len_chans := h.len_chans,
      state01 := h.state01, lock01 := h.lock01,
      mutex := ?_, idle_noloop := ?_, open_wit := ?_, lock_wit := ?_,
      push_decomp := ?_, pushed_lt := h.pushed_lt,
      pushed_new := ?_, pushed_nodup := h.pushed_nodup,
      hold_decomp := ?_, failed_stuck := ?_,
      chan_coh := h.chan_coh, sent_coh := h.sent_coh, done_res := ?_ }
  · show (c.pcs.set i (PC.atClear t)).length = c.tasks.length
    rw [List.length_set]
    exact h.len_pcs
  · intro j k hj hk
    have hj' : inLoop (pcOf c j) = true := by
      rcases eq_or_ne j i with rfl | hne
      · exact hiL
      · rwa [hpj j hne] at hj
    have hk' : inLoop (pcOf c k) = true := by
      rcases eq_or_ne k i with rfl | hne
      · exact hiL
      · rwa [hpj k hne] at hk
    exact h.mutex j k hj' hk'
  · intro hss
    have hss2 : c.q.state = IDLE := hss
    rw [hop] at hss2
    exact absurd hss2 (by simp [OPEN, IDLE])
  · intro _
    exact Or.inl ⟨i, by rw [hpi]; rfl⟩
  · intro _
    exact ⟨i, by rw [hpi]; rfl⟩
  · show c.pushed = (c.popped ++ [t]) ++ rest
    rw [h.push_decomp, hd, List.append_assoc]
    rfl
  · intro j hj
    rcases eq_or_ne j i with rfl | hne
    · rw [hpi] at hj; exact PC.noConfusion hj
    · rw [hpj j hne] at hj; exact h.pushed_new j hj
  · rcases h.hold_decomp with ⟨he, _⟩ | ⟨t', j, he, hj⟩ | ⟨_, _, hf, _⟩
    · right; left
      refine ⟨t, i, ?_, Or.inl hpi⟩
      show c.popped ++ [t] = c.sentL ++ [t]
      rw [he]
    · have hj' : holdTask (pcOf c j) = some t' := by
        rcases hj with hj | hj <;> rw [hj] <;> rfl
      have hji : j = i := h.mutex j i (inLoop_of_holdTask hj') hiL
      rw [hji, hpc] at hj
      rcases hj with hj | hj <;> exact PC.noConfusion hj
    · exact Bool.noConfusion (((h.failed_stuck hf).1 i).symm.trans hiL)
  · intro hf
    obtain ⟨k, hk⟩ := hf
    have hne : k ≠ i := by rintro rfl; rw [hpi] at hk; exact PC.noConfusion hk
    rw [hpj k hne] at hk
    exact Bool.noConfusion (((h.failed_stuck ⟨k, hk⟩).1 i).symm.trans hiL)
  · intro j r hj
    rcases eq_or_ne j i with rfl | hne
    · rw [hpi] at hj; exact PC.noConfusion hj
    · rw [hpj j hne] at hj; exact h.done_res j r hj

theorem inv_clear {c : Config} {i t : Nat} (h : Inv c)
    (hpc : pcOf c i = .atClear t) :
    Inv { c with q := { c.q with lock := IDLE },
                 pcs := c.pcs.set i (.atExec t) } := by
  have hlt : i < c.pcs.length := pcOf_lt (by simp [hpc])
  have hiL : inLoop (pcOf c i) = true := by rw [hpc]; rfl
  have hop : c.q.state = OPEN := state_open_of_loop h hiL
  have hpi : pcOf
      { c with q := { c.q with lock := IDLE },
               pcs := c.pcs.set i (.atExec t) } i = .atExec t :=
    getD_set_eq c.pcs i (.atExec t) .cancelled hlt
  have hpj : ∀ j, j ≠ i → pcOf
      { c with q := { c.q with lock := IDLE },
               pcs := c.pcs.set i (.atExec t) } j = pcOf c j :=
    fun j hj => getD_set_ne c.pcs (Ne.symm hj) (.atExec t) .cancelled
  refine
    { len_pcs := ?_, len_chans := h.len_chans,
      state01 := h.state01, lock01 := Or.inl rfl,
      mutex := ?_, idle_noloop := ?_, open_wit := ?_, lock_wit := ?_,
      push_decomp := h.push_decomp, pushed_lt := h.pushed_lt,
      pushed_new := ?_, pushed_nodup := h.pushed_nodup,
      hold_decomp := ?_, failed_stuck := ?_,
      chan_coh := h.chan_coh, sent_coh := h.sent_coh, done_res := ?_ }
  · show (c.pcs.set i (PC.atExec t)).length = c.tasks.length
    rw [List.length_set]
    exact h.len_pcs
  · intro j k hj hk
    have hj' : inLoop (pcOf c j) = true := by
      rcases eq_or_ne j i with rfl | hne
      · exact hiL
      · rwa [hpj j hne] at hj
    have hk' : inLoop (pcOf c k) = true := by
      rcases eq_or_ne k i with rfl | hne
      · exact hiL
      · rwa [hpj k hne] at hk
    exact h.mutex j k hj' hk'
  · intro hss
    have hss2 : c.q.state = IDLE := hss
    rw [hop] at hss2
    exact absurd hss2 (by simp [OPEN, IDLE])
  · intro _
    exact Or.inl ⟨i, by rw [hpi]; rfl⟩
  · intro hss
    exact absurd hss (by simp [IDLE, OPEN])
  · intro j hj
    rcases eq_or_ne j i with rfl | hne
    · rw [hpi] at hj; exact PC.noConfusion hj
    · rw [hpj j hne] at hj; exact h.pushed_new j hj
  · right; left
    exact ⟨t, i, holder_decomp h (Or.inl hpc), Or.inr hpi⟩
  · intro hf
    obtain ⟨k, hk⟩ := hf
    have hne : k ≠ i := by rintro rfl; rw [hpi] at hk; exact PC.noConfusion hk
    rw [hpj k hne] at hk
    exact Bool.noConfusion (((h.failed_stuck ⟨k, hk⟩).1 i).symm.trans hiL)
  · intro j r hj
    rcases eq_or_ne j i with rfl | hne
    · rw [hpi] at hj; exact PC.noConfusion hj
    · rw [hpj j hne] at hj; exact h.done_res j r hj

theorem inv_exec_send {c : Config} {i t : Nat} (h : Inv c)
    (hpc : pcOf c i = .atExec t) (hch : chanOf c t ≠ .rxDropped) :
    Inv { c with chans := c.chans.set t (.sent (c.tasks.getD t (.ok 0))),
                 pcs := c.pcs.set i .atDrainLock,
                 sentL := c.sentL ++ [t] } := by
  have hlt : i < c.pcs.length := pcOf_lt (by simp [hpc])
  have hiL : inLoop (pcOf c i) = true := by rw [hpc]; rfl
  have hop : c.q.state = OPEN := state_open_of_loop h hiL
  have he : c.popped = c.sentL ++ [t] := holder_decomp h (Or.inr hpc)
  have htlt : t < c.tasks.length := holder_lt h he
  have htch : t < c.chans.length := by rw [h.len_chans]; exact htlt
  have htnot : t ∉ c.sentL := holder_not_sent h he
  have hpi : pcOf
      { c with chans := c.chans.set t (.sent (c.tasks.getD t (.ok 0))),
               pcs := c.pcs.set i .atDrainLock,
               sentL := c.sentL ++ [t] } i = .atDrainLock :=
    getD_set_eq c.pcs i .atDrainLock .cancelled hlt
  have hpj : ∀ j, j ≠ i → pcOf
      { c with chans := c.chans.set t (.sent (c.tasks.getD t (.ok 0))),
               pcs := c.pcs.set i .atDrainLock,
               sentL := c.sentL ++ [t] } j = pcOf c j :=
    fun j hj => getD_set_ne c.pcs (Ne.symm hj) .atDrainLock .cancelled
  have hci : chanOf
      { c with chans := c.chans.set t (.sent (c.tasks.getD t (.ok 0))),
               pcs := c.pcs.set i .atDrainLock,
               sentL := c.sentL ++ [t] } t = .sent (c.tasks.getD t (.ok 0)) :=
    getD_set_eq c.chans t _ .unsent htch
  have hcj : ∀ j, j ≠ t → chanOf
      { c with chans := c.chans.set t (.sent (c.tasks.getD t (.ok 0))),
               pcs := c.pcs.set i .atDrainLock,
               sentL := c.sentL ++ [t] } j = chanOf c j :=
    fun j hj => getD_set_ne c.chans (Ne.symm hj) _ .unsent
  refine
    { len_pcs := ?_, len_chans := ?_,
      state01 := h.state01, lock01 := h.lock01,
      mutex := ?_, idle_noloop := ?_, open_wit := ?_, lock_wit := ?_,
      push_decomp := h.push_decomp, pushed_lt := h.pushed_lt,
      pushed_new := ?_, pushed_nodup := h.pushed_nodup,
      hold_decomp := ?_, failed_stuck := ?_,
      chan_coh := ?_, sent_coh := ?_, done_res := ?_ }
  · show (c.pcs.set i PC.atDrainLock).length = c.tasks.length
    rw [List.length_set]
    exact h.len_pcs
  · show (c.chans.set t (.sent (c.tasks.getD t (.ok 0)))).length = c.tasks.length
    rw [List.length_set]
    exact h.len_chans
  · intro j k hj hk
    have hj' : inLoop (pcOf c j) = true := by
      rcases eq_or_ne j i with rfl | hne
      · exact hiL
      · rwa [hpj j hne] at hj
    have hk' : inLoop (pcOf c k) = true := by
      rcases eq_or_ne k i with rfl | hne
      · exact hiL
      · rwa [hpj k hne] at hk
    exact h.mutex j k hj' hk'
  · intro hss
    have hss2 : c.q.state = IDLE := hss
    rw [hop] at hss2
    exact absurd hss2 (by simp [OPEN, IDLE])
  · intro _
    exact Or.inl ⟨i, by rw [hpi]; rfl⟩
  · intro hlk
    have hlk2 : c.q.lock = OPEN := hlk
    obtain ⟨j, hj⟩ := h.lock_wit hlk2
    have hne : j ≠ i := by rintro rfl; rw [hpc] at hj; exact Bool.noConfusion hj
    exact ⟨j, by rw [hpj j hne]; exact hj⟩
  · intro j hj
    rcases eq_or_ne j i with rfl | hne
    · rw [hpi] at hj; exact PC.noConfusion hj
    · rw [hpj j hne] at hj; exact h.pushed_new j hj
  · left
    refine ⟨?_, fun j => ?_⟩
    · show c.popped = c.sentL ++ [t]
      exact he
    · rcases eq_or_ne j i with rfl | hne
      · rw [hpi]; rfl
      · rw [hpj j hne]
        exact only_holder h hiL hne
  · intro hf
    obtain ⟨k, hk⟩ := hf
    have hne : k ≠ i := by rintro rfl; rw [hpi] at hk; exact PC.noConfusion hk
    rw [hpj k hne] at hk
    exact Bool.noConfusion (((h.failed_stuck ⟨k, hk⟩).1 i).symm.trans hiL)
  · intro j r hcr
    rcases eq_or_ne j t with rfl | hne
    · rw [hci] at hcr
      have hr : c.tasks.getD j (.ok 0) = r := by injection hcr
      exact ⟨hr.symm, List.mem_append.mpr (Or.inr (by simp))⟩
    · rw [hcj j hne] at hcr
      obtain ⟨hr, hm⟩ := h.chan_coh j r hcr
      exact ⟨hr, List.mem_append.mpr (Or.inl hm)⟩
  · intro j hjm
    rcases List.mem_append.mp hjm with hm | hm
    · have hne : j ≠ t := fun hh => htnot (hh ▸ hm)
      rw [hcj j hne]
      exact h.sent_coh j hm
    · have hjt : j = t := by simpa using hm
      rw [hjt]
      exact hci
  · intro j r hj
    rcases eq_or_ne j i with rfl | hne
    · rw [hpi] at hj; exact PC.noConfusion hj
    · rw [hpj j hne] at hj; exact h.done_res j r hj

theorem inv_exec_fail {c : Config} {i t : Nat} (h : Inv c)
    (hpc : pcOf c i = .atExec t) (_hch : chanOf c t = .rxDropped) :
    Inv { c with pcs := c.pcs.set i (.done .engineErr),
                 chans := c.chans.set i (dropRx (c.chans.getD i .unsent)) } := by
  have hlt : i < c.pcs.length := pcOf_lt (by simp [hpc])
  have hiL : inLoop (pcOf c i) = true := by rw [hpc]; rfl
  have hop : c.q.state = OPEN := state_open_of_loop h hiL
  have he : c.popped = c.sentL ++ [t] := holder_decomp h (Or.inr hpc)
  have hich : i < c.chans.length := by
    rw [h.len_chans, ← h.len_pcs]
    exact hlt
  have hpi : pcOf
      { c with pcs := c.pcs.set i (.done .engineErr),
               chans := c.chans.set i (dropRx (c.chans.getD i .unsent)) } i =
      .done .engineErr :=
    getD_set_eq c.pcs i (.done .engineErr) .cancelled hlt
  have hpj : ∀ j, j ≠ i → pcOf
      { c with pcs := c.pcs.set i (.done .engineErr),
               chans := c.chans.set i (dropRx (c.chans.getD i .unsent)) } j =
      pcOf c j :=
    fun j hj => getD_set_ne c.pcs (Ne.symm hj) (.done .engineErr) .cancelled
  have hci : chanOf
      { c with pcs := c.pcs.set i (.done .engineErr),
               chans := c.chans.set i (dropRx (c.chans.getD i .unsent)) } i =
      dropRx (chanOf c i) :=
    getD_set_eq c.chans i _ .unsent hich
  have hcj : ∀ j, j ≠ i → chanOf
      { c with pcs := c.pcs.set i (.done .engineErr),
               chans := c.chans.set i (dropRx (c.chans.getD i .unsent)) } j =
      chanOf c j :=
    fun j hj => getD_set_ne c.chans (Ne.symm hj) _ .unsent
  refine
    { len_pcs := ?_, len_chans := ?_,
      state01 := h.state01, lock01 := h.lock01,
      mutex := ?_, idle_noloop := ?_, open_wit := ?_, lock_wit := ?_,
      push_decomp := h.push_decomp, pushed_lt := h.pushed_lt,
      pushed_new := ?_, pushed_nodup := h.pushed_nodup,
      hold_decomp := ?_, failed_stuck := ?_,
      chan_coh := ?_, sent_coh := ?_, done_res := ?_ }
  · show (c.pcs.set i (PC.done .engineErr)).length = c.tasks.length
    rw [List.length_set]
    exact h.len_pcs
  · show (c.chans.set i (dropRx (c.chans.getD i .unsent))).length = c.tasks.length
    rw [List.length_set]
    exact h.len_chans
  · intro j k hj hk
    have hj' : j ≠ i → inLoop (pcOf c j) = true := fun hne => by
      rwa [hpj j hne] at hj
    have hk' : k ≠ i → inLoop (pcOf c k) = true := fun hne => by
      rwa [hpj k hne] at hk
    by_cases hje : j = i
    · by_cases hke : k = i
      · rw [hje, hke]
      · exact absurd (h.mutex k i (hk' hke) hiL) hke
    · exact absurd (h.mutex j i (hj' hje) hiL) hje
  · intro hss
    have hss2 : c.q.state = IDLE := hss
    rw [hop] at hss2
    exact absurd hss2 (by simp [OPEN, IDLE])
  · intro _
    right
    exact ⟨i, hpi⟩
  · intro hlk
    have hlk2 : c.q.lock = OPEN := hlk
    obtain ⟨j, hj⟩ := h.lock_wit hlk2
    have hne : j ≠ i := by rintro rfl; rw [hpc] at hj; exact Bool.noConfusion hj
    exact ⟨j, by rw [hpj j hne]; exact hj⟩
  · intro j hj
    rcases eq_or_ne j i with rfl | hne
    · rw [hpi] at hj; exact PC.noConfusion hj
    · rw [hpj j hne] at hj; exact h.pushed_new j hj
  · right; right
    refine ⟨t, he, ⟨i, hpi⟩, fun j => ?_⟩
    rcases eq_or_ne j i with rfl | hne
    · rw [hpi]; rfl
    · rw [hpj j hne]
      exact only_holder h hiL hne
  · intro _
    refine ⟨fun j => ?_, hop⟩
    rcases eq_or_ne j i with rfl | hne
    · rw [hpi]; rfl
    · cases hb : inLoop (pcOf c j) with
      | false => rw [hpj j hne]; exact hb
      | true => exact absurd (h.mutex j i hb hiL) hne
  · intro j r hcr
    rcases eq_or_ne j i with rfl | hne
    · rw [hci] at hcr
      cases hcc : chanOf c j with
      | unsent => rw [hcc] at hcr; exact Chan.noConfusion hcr
      | rxDropped => rw [hcc] at hcr; exact Chan.noConfusion hcr
      | sent r' =>
          rw [hcc] at hcr
          have hcr2 : Chan.sent r' = .sent r := hcr
          have hrr : r' = r := by injection hcr2
          rw [← hrr]
          exact h.chan_coh j r' hcc
    · rw [hcj j hne] at hcr
      exact h.chan_coh j r hcr
  · intro j hm
    rcases eq_or_ne j i with rfl | hne
    · have hsj := h.sent_coh j hm
      rw [hci, hsj]
      rfl
    · rw [hcj j hne]
      exact h.sent_coh j hm
  · intro j r hj
    rcases eq_or_ne j i with rfl | hne
    · rw [hpi] at hj
      have hj2 : Outcome.engineErr = .result r := by injection hj
      exact Outcome.noConfusion hj2
    · rw [hpj j hne] at hj; exact h.done_res j r hj

theorem inv_setState {c : Config} {i : Nat} (h : Inv c)
    (hpc : pcOf c i = .atSetStateIdle) :
    Inv { c with q := { c.q with state := IDLE },
                 pcs := c.pcs.set i .atSetLockIdle } := by
  have hlt : i < c.pcs.length := pcOf_lt (by simp [hpc])
  have hiL : inLoop (pcOf c i) = true := by rw [hpc]; rfl
  have hpi : pcOf
      { c with q := { c.q with state := IDLE },
               pcs := c.pcs.set i .atSetLockIdle } i = .atSetLockIdle :=
    getD_set_eq c.pcs i .atSetLockIdle .cancelled hlt
  have hpj : ∀ j, j ≠ i → pcOf
      { c with q := { c.q with state := IDLE },
               pcs := c.pcs.set i .atSetLockIdle } j = pcOf c j :=
    fun j hj => getD_set_ne c.pcs (Ne.symm hj) .atSetLockIdle .cancelled
  refine
    { len_pcs := ?_, len_chans := h.len_chans,
      state01 := Or.inl rfl, lock01 := h.lock01,
      mutex := ?_, idle_noloop := ?_, open_wit := ?_, lock_wit := ?_,
      push_decomp := h.push_decomp, pushed_lt := h.pushed_lt,
      pushed_new := ?_, pushed_nodup := h.pushed_nodup,
      hold_decomp := ?_, failed_stuck := ?_,
      chan_coh := h.chan_coh, sent_coh := h.sent_coh, done_res := ?_ }
  · show (c.pcs.set i PC.atSetLockIdle).length = c.tasks.length
    rw [List.length_set]
    exact h.len_pcs
  · intro j k hj hk
    have hj' : j ≠ i → inLoop (pcOf c j) = true := fun hne => by
      rwa [hpj j hne] at hj
    have hk' : k ≠ i → inLoop (pcOf c k) = true := fun hne => by
      rwa [hpj k hne] at hk
    by_cases hje : j = i
    · by_cases hke : k = i
      · rw [hje, hke]
      · exact absurd (h.mutex k i (hk' hke) hiL) hke
    · exact absurd (h.mutex j i (hj' hje) hiL) hje
  · intro _ j
    rcases eq_or_ne j i with rfl | hne
    · rw [hpi]; rfl
    · cases hb : inLoop (pcOf c j) with
      | false => rw [hpj j hne]; exact hb
      | true => exact absurd (h.mutex j i hb hiL) hne
  · intro hss
    exact absurd hss (by simp [IDLE, OPEN])
  · intro hlk
    have hlk2 : c.q.lock = OPEN := hlk
    obtain ⟨j, hj⟩ := h.lock_wit hlk2
    by_cases hne : j = i
    · exact ⟨i, by rw [hpi]; rfl⟩
    · exact ⟨j, by rw [hpj j hne]; exact hj⟩
  · intro j hj
    rcases eq_or_ne j i with rfl | hne
    · rw [hpi] at hj; exact PC.noConfusion hj
    · rw [hpj j hne] at hj; exact h.pushed_new j hj
  · rcases h.hold_decomp with ⟨he, hnh⟩ | ⟨t, j, he, hj⟩ | ⟨_, _, hf, _⟩
    · left
      refine ⟨he, fun j => ?_⟩
      rcases eq_or_ne j i with rfl | hne
      · rw [hpi]; rfl
      · rw [hpj j hne]; exact hnh j
    · have hj' : holdTask (pcOf c j) = some t := by
        rcases hj with hj | hj <;> rw [hj] <;> rfl
      have hji : j = i := h.mutex j i (inLoop_of_holdTask hj') hiL
      rw [hji, hpc] at hj
      rcases hj with hj | hj <;> exact PC.noConfusion hj
    · exact Bool.noConfusion (((h.failed_stuck hf).1 i).symm.trans hiL)
  · intro hf
    obtain ⟨k, hk⟩ := hf
    have hne : k ≠ i := by rintro rfl; rw [hpi] at hk; exact PC.noConfusion hk
    rw [hpj k hne] at hk
    exact Bool.noConfusion (((h.failed_stuck ⟨k, hk⟩).1 i).symm.trans hiL)
  · intro j r hj
    rcases eq_or_ne j i with rfl | hne
    · rw [hpi] at hj; exact PC.noConfusion hj
    · rw [hpj j hne] at hj; exact h.done_res j r hj

theorem inv_setLock {c : Config} {i : Nat} (h : Inv c)
    (hpc : pcOf c i = .atSetLockIdle) :
    Inv { c with q := { c.q with lock := IDLE },
                 pcs := c.pcs.set i .atAwaitRx } := by
  have hlt : i < c.pcs.length := pcOf_lt (by simp [hpc])
  have hpi : pcOf
      { c with q := { c.q with lock := IDLE },
               pcs := c.pcs.set i .atAwaitRx } i = .atAwaitRx :=
    getD_set_eq c.pcs i .atAwaitRx .cancelled hlt
  have hpj : ∀ j, j ≠ i → pcOf
      { c with q := { c.q with lock := IDLE },
               pcs := c.pcs.set i .atAwaitRx } j = pcOf c j :=
    fun j hj => getD_set_ne c.pcs (Ne.symm hj) .atAwaitRx .cancelled
  refine
    { len_pcs := ?_, len_chans := h.len_chans,
      state01 := h.state01, lock01 := Or.inl rfl,
      mutex := ?_, idle_noloop := ?_, open_wit := ?_, lock_wit := ?_,
      push_decomp := h.push_decomp, pushed_lt := h.pushed_lt,
      pushed_new := ?_, pushed_nodup := h.pushed_nodup,
      hold_decomp := ?_, failed_stuck := ?_,
      chan_coh := h.chan_coh, sent_coh := h.sent_coh, done_res := ?_ }
  · show (c.pcs.set i PC.atAwaitRx).length = c.tasks.length
    rw [List.length_set]
    exact h.len_pcs
  · intro j k hj hk
    have hj' : inLoop (pcOf c j) = true := by
      rcases eq_or_ne j i with rfl | hne
      · rw [hpi] at hj; exact Bool.noConfusion hj
      · rwa [hpj j hne] at hj
    have hk' : inLoop (pcOf c k) = true := by
      rcases eq_or_ne k i with rfl | hne
      · rw [hpi] at hk; exact Bool.noConfusion hk
      · rwa [hpj k hne] at hk
    exact h.mutex j k hj' hk'
  · intro hss j
    have hss2 : c.q.state = IDLE := hss
    rcases eq_or_ne j i with rfl | hne
    · rw [hpi]; rfl
    · rw [hpj j hne]; exact h.idle_noloop hss2 j
  · intro hss
    have hss2 : c.q.state = OPEN := hss
    rcases h.open_wit hss2 with ⟨j, hj⟩ | ⟨j, hj⟩
    · left
      have hne : j ≠ i := by rintro rfl; rw [hpc] at hj; exact Bool.noConfusion hj
      exact ⟨j, by rw [hpj j hne]; exact hj⟩
    · right
      have hne : j ≠ i := by rintro rfl; rw [hpc] at hj; exact PC.noConfusion hj
      exact ⟨j, by rw [hpj j hne]; exact hj⟩
  · intro hss
    exact absurd hss (by simp [IDLE, OPEN])
  · intro j hj
    rcases eq_or_ne j i with rfl | hne
    · rw [hpi] at hj; exact PC.noConfusion hj
    · rw [hpj j hne] at hj; exact h.pushed_new j hj
  · rcases h.hold_decomp with ⟨he, hnh⟩ | ⟨t, j, he, hj⟩ | ⟨t, he, hf, hnh⟩
    · left
      refine ⟨he, fun j => ?_⟩
      rcases eq_or_ne j i with rfl | hne
      · rw [hpi]; rfl
      · rw [hpj j hne]; exact hnh j
    · right; left
      have hne : j ≠ i := by
        rintro rfl
        rcases hj with hj | hj <;> rw [hpc] at hj <;> exact PC.noConfusion hj
      exact ⟨t, j, he, by rw [hpj j hne]; exact hj⟩
    · right; right
      refine ⟨t, he, ?_, fun j => ?_⟩
      · obtain ⟨k, hk⟩ := hf
        have hne : k ≠ i := by rintro rfl; rw [hpc] at hk; exact PC.noConfusion hk
        exact ⟨k, by rw [hpj k hne]; exact hk⟩
      · rcases eq_or_ne j i with rfl | hne
        · rw [hpi]; rfl
        · rw [hpj j hne]; exact hnh j
  · intro hf
    obtain ⟨k, hk⟩ := hf
    have hne : k ≠ i := by rintro rfl; rw [hpi] at hk; exact PC.noConfusion hk
    rw [hpj k hne] at hk
    obtain ⟨hnl, hst⟩ := h.failed_stuck ⟨k, hk⟩
    refine ⟨fun j => ?_, hst⟩
    rcases eq_or_ne j i with rfl | hne2
    · rw [hpi]; rfl
    · rw [hpj j hne2]; exact hnl j
  · intro j r hj
    rcases eq_or_ne j i with rfl | hne
    · rw [hpi] at hj; exact PC.noConfusion hj
    · rw [hpj j hne] at hj; exact h.done_res j r hj

theorem inv_cancel {c : Config} {i : Nat} (h : Inv c)
    (hpc : pcOf c i = .atAwaitRx) :
    Inv { c with pcs := c.pcs.set i .cancelled,
                 chans := c.chans.set i (dropRx (c.chans.getD i .unsent)) } := by
  have hlt : i < c.pcs.length := pcOf_lt (by simp [hpc])
  have hich : i < c.chans.length := by
    rw [h.len_chans, ← h.len_pcs]
    exact hlt
  have hpi : pcOf
      { c with pcs := c.pcs.set i .cancelled,
               chans := c.chans.set i (dropRx (c.chans.getD i .unsent)) } i =
      .cancelled :=
    getD_set_eq c.pcs i .cancelled .cancelled hlt
  have hpj : ∀ j, j ≠ i → pcOf
      { c with pcs := c.pcs.set i .cancelled,
               chans := c.chans.set i (dropRx (c.chans.getD i .unsent)) } j =
      pcOf c j :=
    fun j hj => getD_set_ne c.pcs (Ne.symm hj) .cancelled .cancelled
  have hci : chanOf
      { c with pcs := c.pcs.set i .cancelled,
               chans := c.chans.set i (dropRx (c.chans.getD i .unsent)) } i =
      dropRx (chanOf c i) :=
    getD_set_eq c.chans i _ .unsent hich
  have hcj : ∀ j, j ≠ i → chanOf
      { c with pcs := c.pcs.set i .cancelled,
               chans := c.chans.set i (dropRx (c.chans.getD i .unsent)) } j =
      chanOf c j :=
    fun j hj => getD_set_ne c.chans (Ne.symm hj) _ .unsent
  refine
    { len_pcs := ?_, len_chans := ?_,
      state01 := h.state01, lock01 := h.lock01,
      mutex := ?_, idle_noloop := ?_, open_wit := ?_, lock_wit := ?_,
      push_decomp := h.push_decomp, pushed_lt := h.pushed_lt,
      pushed_new := ?_, pushed_nodup := h.pushed_nodup,
      hold_decomp := ?_, failed_stuck := ?_,
      chan_coh := ?_, sent_coh := ?_, done_res := ?_ }
  · show (c.pcs.set i PC.cancelled).length = c.tasks.length
    rw [List.length_set]
    exact h.len_pcs
  · show (c.chans.set i (dropRx (c.chans.getD i .unsent))).length = c.tasks.length
    rw [List.length_set]
    exact h.len_chans
  · intro j k hj hk
    have hj' : inLoop (pcOf c j) = true := by
      rcases eq_or_ne j i with rfl | hne
      · rw [hpi] at hj; exact Bool.noConfusion hj
      · rwa [hpj j hne] at hj
    have hk' : inLoop (pcOf c k) = true := by
      rcases eq_or_ne k i with rfl | hne
      · rw [hpi] at hk; exact Bool.noConfusion hk
      · rwa [hpj k hne] at hk
    exact h.mutex j k hj' hk'
  · intro hss j
    have hss2 : c.q.state = IDLE := hss
    rcases eq_or_ne j i with rfl | hne
    · rw [hpi]; rfl
    · rw [hpj j hne]; exact h.idle_noloop hss2 j
  · intro hss
    have hss2 : c.q.state = OPEN := hss
    rcases h.open_wit hss2 with ⟨j, hj⟩ | ⟨j, hj⟩
    · left
      have hne : j ≠ i := by rintro rfl; rw [hpc] at hj; exact Bool.noConfusion hj
      exact ⟨j, by rw [hpj j hne]; exact hj⟩
    · right
      have hne : j ≠ i := by rintro rfl; rw [hpc] at hj; exact PC.noConfusion hj
      exact ⟨j, by rw [hpj j hne]; exact hj⟩
  · intro hlk
    have hlk2 : c.q.lock = OPEN := hlk
    obtain ⟨j, hj⟩ := h.lock_wit hlk2
    have hne : j ≠ i := by rintro rfl; rw [hpc] at hj; exact Bool.noConfusion hj
    exact ⟨j, by rw [hpj j hne]; exact hj⟩
  · intro j hj
    rcases eq_or_ne j i with rfl | hne
    · rw [hpi] at hj; exact PC.noConfusion hj
    · rw [hpj j hne] at hj; exact h.pushed_new j hj
  · rcases h.hold_decomp with ⟨he, hnh⟩ | ⟨t, j, he, hj⟩ | ⟨t, he, hf, hnh⟩
    · left
      refine ⟨he, fun j => ?_⟩
      rcases eq_or_ne j i with rfl | hne
      · rw [hpi]; rfl
      · rw [hpj j hne]; exact hnh j
    · right; left
      have hne : j ≠ i := by
        rintro rfl
        rcases hj with hj | hj <;> rw [hpc] at hj <;> exact PC.noConfusion hj
      exact ⟨t, j, he, by rw [hpj j hne]; exact hj⟩
    · right; right
      refine ⟨t, he, ?_, fun j => ?_⟩
      · obtain ⟨k, hk⟩ := hf
        have hne : k ≠ i := by rintro rfl; rw [hpc] at hk; exact PC.noConfusion hk
        exact ⟨k, by rw [hpj k hne]; exact hk⟩
      · rcases eq_or_ne j i with rfl | hne
        · rw [hpi]; rfl
        · rw [hpj j hne]; exact hnh j
  · intro hf
    obtain ⟨k, hk⟩ := hf
    have hne : k ≠ i := by rintro rfl; rw [hpi] at hk; exact PC.noConfusion hk
    rw [hpj k hne] at hk
    obtain ⟨hnl, hst⟩ := h.failed_stuck ⟨k, hk⟩
    refine ⟨fun j => ?_, hst⟩
    rcases eq_or_ne j i with rfl | hne2
    · rw [hpi]; rfl
    · rw [hpj j hne2]; exact hnl j
  · intro j r hcr
    rcases eq_or_ne j i with rfl | hne
    · rw [hci] at hcr
      cases hcc : chanOf c j with
      | unsent => rw [hcc] at hcr; exact Chan.noConfusion hcr
      | rxDropped => rw [hcc] at hcr; exact Chan.noConfusion hcr
      | sent r' =>
          rw [hcc] at hcr
          have hcr2 : Chan.sent r' = .sent r := hcr
          have hrr : r' = r := by injection hcr2
          rw [← hrr]
          exact h.chan_coh j r' hcc
    · rw [hcj j hne] at hcr
      exact h.chan_coh j r hcr
  · intro j hm
    rcases eq_or_ne j i with rfl | hne
    · have hsj := h.sent_coh j hm
      rw [hci, hsj]
      rfl
    · rw [hcj j hne]
      exact h.sent_coh j hm
  · intro j r hj
    rcases eq_or_ne j i with rfl | hne
    · rw [hpi] at hj; exact PC.noConfusion hj
    · rw [hpj j hne] at hj; exact h.done_res j r hj

/-! ### The invariant is inductive -/

theorem inv_step {c : Config} (h : Inv c) (a : Action) : Inv (step c a) := by
  cases a with
  | act i =>
      show Inv (stepThread c i)
      cases hpc : pcOf c i with
      | atPush =>
          by_cases hcl : c.q.closed = true
          · rw [step_push_closed hpc hcl]
            refine inv_set_pc h (pcOf_lt (by simp [hpc])) ?_ ?_ ?_ ?_ ?_ ?_ ?_ ?_ ?_
            · rw [hpc]; rfl
            · rw [hpc]; rfl
            · rw [hpc]; rfl
            · rw [hpc]; simp
            · rfl
            · rfl
            · simp
            · simp
            · intro r hr; simp at hr
          · rw [step_push_ok hpc (Bool.not_eq_true _ ▸ hcl)]
            exact inv_push_ok h hpc
      | atSpin =>
          by_cases hl : c.q.lock = OPEN
          · rw [step_spin_busy hpc hl]; exact h
          · rw [step_spin_pass hpc hl]
            refine inv_set_pc h (pcOf_lt (by simp [hpc])) ?_ ?_ ?_ ?_ ?_ ?_ ?_ ?_ ?_
            · rw [hpc]; rfl
            · rw [hpc]; rfl
            · rw [hpc]; rfl
            · rw [hpc]; simp
            · rfl
            · rfl
            · simp
            · simp
            · intro r hr; simp at hr
      | atCas =>
          by_cases hs : c.q.state = IDLE
          · rw [step_cas_win hpc hs]; exact inv_cas_win h hpc hs
          · rw [step_cas_lose hpc hs]
            refine inv_set_pc h (pcOf_lt (by simp [hpc])) ?_ ?_ ?_ ?_ ?_ ?_ ?_ ?_ ?_
            · rw [hpc]; rfl
            · rw [hpc]; rfl
            · rw [hpc]; rfl
            · rw [hpc]; simp
            · rfl
            · rfl
            · simp
            · simp
            · intro r hr; simp at hr
      | atDrainLock => rw [step_drainLock hpc]; exact inv_drainLock h hpc
      | atPop =>
          cases hd : c.q.deque with
          | nil => rw [step_pop_empty hpc hd]; exact inv_pop_empty h hpc
          | cons t rest => rw [step_pop_cons hpc hd]; exact inv_pop_cons h hpc hd
      | atClear t => rw [step_clear hpc]; exact inv_clear h hpc
      | atExec t =>
          by_cases hch : chanOf c t = .rxDropped
          · rw [step_exec_fail hpc hch]; exact inv_exec_fail h hpc hch
          · rw [step_exec_send hpc hch]; exact inv_exec_send h hpc hch
      | atSetStateIdle => rw [step_setState hpc]; exact inv_setState h hpc
      | atSetLockIdle => rw [step_setLock hpc]; exact inv_setLock h hpc
      | atAwaitRx =>
          cases hch : chanOf c i with
          | sent r =>
              rw [step_await_sent hpc hch]
              refine inv_set_pc h (pcOf_lt (by simp [hpc])) ?_ ?_ ?_ ?_ ?_ ?_ ?_ ?_ ?_
              · rw [hpc]; rfl
              · rw [hpc]; rfl
              · rw [hpc]; rfl
              · rw [hpc]; simp
              · rfl
              · rfl
              · simp
              · simp
              · intro r' hr'
                have hrw : Outcome.result r = .result r' := by injection hr'
                have hrr : r = r' := by injection hrw
                rw [← hrr]
                exact (h.chan_coh i r hch).1
          | unsent =>
              rw [step_await_blocked hpc (fun r hr => Chan.noConfusion (hch.symm.trans hr))]
              exact h
          | rxDropped =>
              rw [step_await_blocked hpc (fun r hr => Chan.noConfusion (hch.symm.trans hr))]
              exact h
      | done o => rw [step_done hpc]; exact h
      | cancelled => rw [step_cancelled hpc]; exact h
  | cancel i =>
      by_cases hpc : pcOf c i = .atAwaitRx
      · show Inv (cancelThread c i)
        rw [cancel_await hpc]
        exact inv_cancel h hpc
      · show Inv (cancelThread c i)
        rw [cancel_other hpc]
        exact h

theorem inv_run {c : Config} (h : Inv c) (sched : List Action) :
    Inv (run c sched) := by
  induction sched generalizing c with
  | nil => exact h
  | cons a s ih => rw [run_cons]; exact ih (inv_step h a)

theorem inv_init (tasks : List (Except Nat Nat)) (closed : Bool) :
    Inv (init tasks closed) := by
  have hpc : ∀ i, pcOf (init tasks closed) i = .atPush ∨
      pcOf (init tasks closed) i = .cancelled := by
    intro i
    by_cases hi : i < tasks.length
    · left
      exact getD_replicate_lt tasks.length i PC.atPush PC.cancelled hi
    · right
      refine getD_of_le _ _ ?_
      show (List.replicate tasks.length PC.atPush).length ≤ i
      rw [List.length_replicate]
      exact Nat.le_of_not_lt hi
  have hch : ∀ i, chanOf (init tasks closed) i = .unsent := by
    intro i
    by_cases hi : i < tasks.length
    · exact getD_replicate_lt tasks.length i Chan.unsent Chan.unsent hi
    · refine getD_of_le _ _ ?_
      show (List.replicate tasks.length Chan.unsent).length ≤ i
      rw [List.length_replicate]
      exact Nat.le_of_not_lt hi
  refine
    { len_pcs := List.length_replicate _ _,
      len_chans := List.length_replicate _ _,
      state01 := Or.inl rfl, lock01 := Or.inl rfl,
      mutex := ?_, idle_noloop := ?_, open_wit := ?_, lock_wit := ?_,
      push_decomp := rfl, pushed_lt := ?_, pushed_new := ?_,
      pushed_nodup := List.nodup_nil,
      hold_decomp := ?_, failed_stuck := ?_,
      chan_coh := ?_, sent_coh := ?_, done_res := ?_ }
  · intro j k hj hk
    rcases hpc j with hp | hp <;> rw [hp] at hj <;> exact Bool.noConfusion hj
  · intro _ j
    rcases hpc j with hp | hp <;> rw [hp] <;> rfl
  · intro hs
    have hs2 : IDLE = OPEN := hs
    exact absurd hs2 (by simp [IDLE, OPEN])
  · intro hs
    have hs2 : IDLE = OPEN := hs
    exact absurd hs2 (by simp [IDLE, OPEN])
  · intro j hj
    exact absurd hj (List.not_mem_nil j)
  · intro j _
    exact List.not_mem_nil j
  · left
    exact ⟨rfl, fun j => by rcases hpc j with hp | hp <;> rw [hp] <;> rfl⟩
  · intro hf
    obtain ⟨k, hk⟩ := hf
    rcases hpc k with hp | hp <;> rw [hp] at hk <;> exact PC.noConfusion hk
  · intro j r hcr
    rw [hch j] at hcr
    exact Chan.noConfusion hcr
  · intro j hj
    exact absurd hj (List.not_mem_nil j)
  · intro j r hj
    rcases hpc j with hp | hp <;> rw [hp] at hj <;> exact PC.noConfusion hj

theorem inv_reach (tasks : List (Except Nat Nat)) (closed : Bool)
    (sched : List Action) : Inv (run (init tasks closed) sched) :=
  inv_run (inv_init tasks closed) sched

/-! ### A failed drain bricks the engine for good -/

theorem failed_step {c : Config} (h : Inv c) (hf : Failed c) (a : Action) :
    Failed (step c a) ∧ (step c a).q.state = OPEN ∧
    (step c a).sentL = c.sentL ∧ (step c a).popped = c.popped := by
  obtain ⟨hnl, hst⟩ := h.failed_stuck hf
  obtain ⟨kf, hkf⟩ := hf
  have transfer : ∀ {v : PC} {i : Nat}, pcOf c i = v → v ≠ .done .engineErr →
      ∀ w : PC, (c.pcs.set i w).getD kf .cancelled = .done .engineErr := by
    intro v i hpc hv w
    have hnei : i ≠ kf := by
      rintro rfl
      rw [hkf] at hpc
      exact hv hpc.symm
    rw [getD_set_ne c.pcs hnei w .cancelled]
    exact hkf
  cases a with
  | act i =>
      show Failed (stepThread c i) ∧ (stepThread c i).q.state = OPEN ∧
        (stepThread c i).sentL = c.sentL ∧ (stepThread c i).popped = c.popped
      cases hpc : pcOf c i with
      | atPush =>
          by_cases hcl : c.q.closed = true
          · rw [step_push_closed hpc hcl]
            exact ⟨⟨kf, transfer hpc (by simp) _⟩, hst, rfl, rfl⟩
          · rw [step_push_ok hpc (Bool.not_eq_true _ ▸ hcl)]
            exact ⟨⟨kf, transfer hpc (by simp) _⟩, hst, rfl, rfl⟩
      | atSpin =>
          by_cases hl : c.q.lock = OPEN
          · rw [step_spin_busy hpc hl]
            exact ⟨⟨kf, hkf⟩, hst, rfl, rfl⟩
          · rw [step_spin_pass hpc hl]
            exact ⟨⟨kf, transfer hpc (by simp) _⟩, hst, rfl, rfl⟩
      | atCas =>
          have hs : c.q.state ≠ IDLE := by rw [hst]; simp [OPEN, IDLE]
          rw [step_cas_lose hpc hs]
          exact ⟨⟨kf, transfer hpc (by simp) _⟩, hst, rfl, rfl⟩
      | atDrainLock => exact absurd (hnl i) (by rw [hpc]; simp [inLoop])
      | atPop => exact absurd (hnl i) (by rw [hpc]; simp [inLoop])
      | atClear t => exact absurd (hnl i) (by rw [hpc]; simp [inLoop])
      | atExec t => exact absurd (hnl i) (by rw [hpc]; simp [inLoop])
      | atSetStateIdle => exact absurd (hnl i) (by rw [hpc]; simp [inLoop])
      | atSetLockIdle =>
          rw [step_setLock hpc]
          exact ⟨⟨kf, transfer hpc (by simp) _⟩, hst, rfl, rfl⟩
      | atAwaitRx =>
          cases hch : chanOf c i with
          | sent r =>
              rw [step_await_sent hpc hch]
              exact ⟨⟨kf, transfer hpc (by simp) _⟩, hst, rfl, rfl⟩
          | unsent =>
              rw [step_await_blocked hpc
                (fun r hr => Chan.noConfusion (hch.symm.trans hr))]
              exact ⟨⟨kf, hkf⟩, hst, rfl, rfl⟩
          | rxDropped =>
              rw [step_await_blocked hpc
                (fun r hr => Chan.noConfusion (hch.symm.trans hr))]
              exact ⟨⟨kf, hkf⟩, hst, rfl, rfl⟩
      | done o =>
          rw [step_done hpc]
          exact ⟨⟨kf, hkf⟩, hst, rfl, rfl⟩
      | cancelled =>
          rw [step_cancelled hpc]
          exact ⟨⟨kf, hkf⟩, hst, rfl, rfl⟩
  | cancel i =>
      show Failed (cancelThread c i) ∧ (cancelThread c i).q.state = OPEN ∧
        (cancelThread c i).sentL = c.sentL ∧ (cancelThread c i).popped = c.popped
      by_cases hpc : pcOf c i = .atAwaitRx
      · rw [cancel_await hpc]
        exact ⟨⟨kf, transfer hpc (by simp) _⟩, hst, rfl, rfl⟩
      · rw [cancel_other hpc]
        exact ⟨⟨kf, hkf⟩, hst, rfl, rfl⟩

theorem failed_run {c : Config} (h : Inv c) (hf : Failed c) (sched : List Action) :
    Failed (run c sched) ∧ (run c sched).q.state = OPEN ∧
    (run c sched).sentL = c.sentL ∧ (run c sched).popped = c.popped := by
  induction sched generalizing c with
  | nil => exact ⟨hf, (h.failed_stuck hf).2, rfl, rfl⟩
  | cons a s ih =>
      obtain ⟨f1, _, s1, p1⟩ := failed_step h hf a
      obtain ⟨f2, s2, s3, p3⟩ := ih (inv_step h a) f1
      rw [run_cons]
      exact ⟨f2, s2, s3.trans s1, p3.trans p1⟩

/-! ### Locality of steps -/

theorem cancel_preserves (c : Config) (k : Nat) :
    (cancelThread c k).q = c.q ∧ (cancelThread c k).sentL = c.sentL ∧
    (cancelThread c k).popped = c.popped ∧ (cancelThread c k).pushed = c.pushed ∧
    (cancelThread c k).tasks = c.tasks := by
  by_cases hpc : pcOf c k = .atAwaitRx
  · rw [cancel_await hpc]; exact ⟨rfl, rfl, rfl, rfl, rfl⟩
  · rw [cancel_other hpc]; exact ⟨rfl, rfl, rfl, rfl, rfl⟩

theorem tasks_stepThread (c : Config) (k : Nat) :
    (stepThread c k).tasks = c.tasks := by
  cases hpc : pcOf c k with
  | atPush =>
      by_cases hcl : c.q.closed = true
      · rw [step_push_closed hpc hcl]
      · rw [step_push_ok hpc (Bool.not_eq_true _ ▸ hcl)]
  | atSpin =>
      by_cases hl : c.q.lock = OPEN
      · rw [step_spin_busy hpc hl]
      · rw [step_spin_pass hpc hl]
  | atCas =>
      by_cases hs : c.q.state = IDLE
      · rw [step_cas_win hpc hs]
      · rw [step_cas_lose hpc hs]
  | atDrainLock => rw [step_drainLock hpc]
  | atPop =>
      cases hd : c.q.deque with
      | nil => rw [step_pop_empty hpc hd]
      | cons t rest => rw [step_pop_cons hpc hd]
  | atClear t => rw [step_clear hpc]
  | atExec t =>
      by_cases hch : chanOf c t = .rxDropped
      · rw [step_exec_fail hpc hch]
      · rw [step_exec_send hpc hch]
  | atSetStateIdle => rw [step_setState hpc]
  | atSetLockIdle => rw [step_setLock hpc]
  | atAwaitRx =>
      cases hch : chanOf c k with
      | sent r => rw [step_await_sent hpc hch]
      | unsent =>
          rw [step_await_blocked hpc (fun r hr => Chan.noConfusion (hch.symm.trans hr))]
      | rxDropped =>
          rw [step_await_blocked hpc (fun r hr => Chan.noConfusion (hch.symm.trans hr))]
  | done o => rw [step_done hpc]
  | cancelled => rw [step_cancelled hpc]

theorem tasks_step (c : Config) (a : Action) : (step c a).tasks = c.tasks := by
  cases a with
  | act k => exact tasks_stepThread c k
  | cancel k => exact (cancel_preserves c k).2.2.2.2

theorem tasks_run (c : Config) (sched : List Action) :
    (run c sched).tasks = c.tasks := by
  induction sched generalizing c with
  | nil => rfl
  | cons a s ih =>
      rw [run_cons, ih, tasks_step]

theorem pcOf_act_other {c : Config} {k i : Nat} (hki : k ≠ i) :
    pcOf (stepThread c k) i = pcOf c i := by
  have hne : ∀ v : PC, (c.pcs.set k v).getD i .cancelled = pcOf c i :=
    fun v => getD_set_ne c.pcs hki v .cancelled
  cases hpc : pcOf c k with
  | atPush =>
      by_cases hcl : c.q.closed = true
      · rw [step_push_closed hpc hcl]; exact hne _
      · rw [step_push_ok hpc (Bool.not_eq_true _ ▸ hcl)]; exact hne _
  | atSpin =>
      by_cases hl : c.q.lock = OPEN
      · rw [step_spin_busy hpc hl]
      · rw [step_spin_pass hpc hl]; exact hne _
  | atCas =>
      by_cases hs : c.q.state = IDLE
      · rw [step_cas_win hpc hs]; exact hne _
      · rw [step_cas_lose hpc hs]; exact hne _
  | atDrainLock => rw [step_drainLock hpc]; exact hne _
  | atPop =>
      cases hd : c.q.deque with
      | nil => rw [step_pop_empty hpc hd]; exact hne _
      | cons t rest => rw [step_pop_cons hpc hd]; exact hne _
  | atClear t => rw [step_clear hpc]; exact hne _
  | atExec t =>
      by_cases hch : chanOf c t = .rxDropped
      · rw [step_exec_fail hpc hch]; exact hne _
      · rw [step_exec_send hpc hch]; exact hne _
  | atSetStateIdle => rw [step_setState hpc]; exact hne _
  | atSetLockIdle => rw [step_setLock hpc]; exact hne _
  | atAwaitRx =>
      cases hch : chanOf c k with
      | sent r => rw [step_await_sent hpc hch]; exact hne _
      | unsent =>
          rw [step_await_blocked hpc (fun r hr => Chan.noConfusion (hch.symm.trans hr))]
      | rxDropped =>
          rw [step_await_blocked hpc (fun r hr => Chan.noConfusion (hch.symm.trans hr))]
  | done o => rw [step_done hpc]
  | cancelled => rw [step_cancelled hpc]

theorem pcOf_cancel_other {c : Config} {k i : Nat} (hki : k ≠ i) :
    pcOf (cancelThread c k) i = pcOf c i := by
  by_cases hpc : pcOf c k = .atAwaitRx
  · rw [cancel_await hpc]
    exact getD_set_ne c.pcs hki .cancelled .cancelled
  · rw [cancel_other hpc]

theorem pcOf_self_after {c : Config} {i : Nat} {v : PC} (hlt : i < c.pcs.length)
    {d : Config} (hd : stepThread c i = d) (hdp : d.pcs = c.pcs.set i v) :
    pcOf (stepThread c i) i = v := by
  rw [hd, pcOf, hdp]
  exact getD_set_eq c.pcs i v .cancelled hlt

/-! ### Which transitions can move a caller to a given position -/

theorem enter_cas {c : Config} {a : Action} {i : Nat}
    (h1 : pcOf c i ≠ .atCas) (h2 : pcOf (step c a) i = .atCas) :
    a = .act i ∧ pcOf c i = .atSpin ∧ c.q.lock ≠ OPEN := by
  cases a with
  | cancel k =>
      have h2' : pcOf (cancelThread c k) i = .atCas := h2
      by_cases hk : k = i
      · subst hk
        by_cases hpc : pcOf c k = .atAwaitRx
        · have h3 : pcOf (cancelThread c k) k = PC.cancelled := by
            rw [cancel_await hpc, pcOf]
            exact getD_set_eq c.pcs k .cancelled .cancelled (pcOf_lt (by simp [hpc]))
          rw [h3] at h2'
          exact PC.noConfusion h2'
        · rw [cancel_other hpc] at h2'
          exact absurd h2' h1
      · rw [pcOf_cancel_other hk] at h2'
        exact absurd h2' h1
  | act k =>
      have h2' : pcOf (stepThread c k) i = .atCas := h2
      by_cases hk : k = i
      · subst hk
        cases hpc : pcOf c k with
        | atPush =>
            by_cases hcl : c.q.closed = true
            · rw [pcOf_self_after (pcOf_lt (by simp [hpc]))
                (step_push_closed hpc hcl) rfl] at h2'
              exact PC.noConfusion h2'
            · rw [pcOf_self_after (pcOf_lt (by simp [hpc]))
                (step_push_ok hpc (Bool.not_eq_true _ ▸ hcl)) rfl] at h2'
              exact PC.noConfusion h2'
        | atSpin =>
            by_cases hl : c.q.lock = OPEN
            · rw [step_spin_busy hpc hl] at h2'
              exact absurd h2' h1
            · exact ⟨rfl, rfl, hl⟩
        | atCas => exact absurd hpc h1
        | atDrainLock =>
            rw [pcOf_self_after (pcOf_lt (by simp [hpc]))
              (step_drainLock hpc) rfl] at h2'
            exact PC.noConfusion h2'
        | atPop =>
            cases hd : c.q.deque with
            | nil =>
                rw [pcOf_self_after (pcOf_lt (by simp [hpc]))
                  (step_pop_empty hpc hd) rfl] at h2'
                exact PC.noConfusion h2'
            | cons t rest =>
                rw [pcOf_self_after (pcOf_lt (by simp [hpc]))
                  (step_pop_cons hpc hd) rfl] at h2'
                exact PC.noConfusion h2'
        | atClear t =>
            rw [pcOf_self_after (pcOf_lt (by simp [hpc]))
              (step_clear hpc) rfl] at h2'
            exact PC.noConfusion h2'
        | atExec t =>
            by_cases hch : chanOf c t = .rxDropped
            · rw [pcOf_self_after (pcOf_lt (by simp [hpc]))
                (step_exec_fail hpc hch) rfl] at h2'
              exact PC.noConfusion h2'
            · rw [pcOf_self_after (pcOf_lt (by simp [hpc]))
                (step_exec_send hpc hch) rfl] at h2'
              exact PC.noConfusion h2'
        | atSetStateIdle =>
            rw [pcOf_self_after (pcOf_lt (by simp [hpc]))
              (step_setState hpc) rfl] at h2'
            exact PC.noConfusion h2'
        | atSetLockIdle =>
            rw [pcOf_self_after (pcOf_lt (by simp [hpc]))
              (step_setLock hpc) rfl] at h2'
            exact PC.noConfusion h2'
        | atAwaitRx =>
            cases hch : chanOf c k with
            | sent r =>
                rw [pcOf_self_after (pcOf_lt (by simp [hpc]))
                  (step_await_sent hpc hch) rfl] at h2'
                exact PC.noConfusion h2'
            | unsent =>
                rw [step_await_blocked hpc
                  (fun r hr => Chan.noConfusion (hch.symm.trans hr))] at h2'
                exact absurd h2' h1
            | rxDropped =>
                rw [step_await_blocked hpc
                  (fun r hr => Chan.noConfusion (hch.symm.trans hr))] at h2'
                exact absurd h2' h1
        | done o =>
            rw [step_done hpc] at h2'
            exact absurd h2' h1
        | cancelled =>
            rw [step_cancelled hpc] at h2'
            exact absurd h2' h1
      · rw [pcOf_act_other hk] at h2'
        exact absurd h2' h1

theorem enter_body {c : Config} {a : Action} {i : Nat}
    (h1 : inDrainBody (pcOf c i) = false)
    (h2 : inDrainBody (pcOf (step c a) i) = true) :
    a = .act i ∧ pcOf c i = .atCas ∧ c.q.state = IDLE ∧
    (step c a).q.state = OPEN := by
  cases a with
  | cancel k =>
      have h2' : inDrainBody (pcOf (cancelThread c k) i) = true := h2
      by_cases hk : k = i
      · subst hk
        by_cases hpc : pcOf c k = .atAwaitRx
        · have h3 : pcOf (cancelThread c k) k = PC.cancelled := by
            rw [cancel_await hpc, pcOf]
            exact getD_set_eq c.pcs k .cancelled .cancelled (pcOf_lt (by simp [hpc]))
          rw [h3] at h2'
          exact Bool.noConfusion h2'
        · rw [cancel_other hpc] at h2'
          exact Bool.noConfusion (h1.symm.trans h2')
      · rw [pcOf_cancel_other hk] at h2'
        exact Bool.noConfusion (h1.symm.trans h2')
  | act k =>
      have h2' : inDrainBody (pcOf (stepThread c k) i) = true := h2
      by_cases hk : k = i
      · subst hk
        cases hpc : pcOf c k with
        | atPush =>
            by_cases hcl : c.q.closed = true
            · rw [pcOf_self_after (pcOf_lt (by simp [hpc]))
                (step_push_closed hpc hcl) rfl] at h2'
              exact Bool.noConfusion h2'
            · rw [pcOf_self_after (pcOf_lt (by simp [hpc]))
                (step_push_ok hpc (Bool.not_eq_true _ ▸ hcl)) rfl] at h2'
              exact Bool.noConfusion h2'
        | atSpin =>
            by_cases hl : c.q.lock = OPEN
            · rw [step_spin_busy hpc hl] at h2'
              exact Bool.noConfusion (h1.symm.trans h2')
            · rw [pcOf_self_after (pcOf_lt (by simp [hpc]))
                (step_spin_pass hpc hl) rfl] at h2'
              exact Bool.noConfusion h2'
        | atCas =>
            by_cases hs : c.q.state = IDLE
            · refine ⟨rfl, rfl, hs, ?_⟩
              show (stepThread c k).q.state = OPEN
              rw [step_cas_win hpc hs]
            · rw [pcOf_self_after (pcOf_lt (by simp [hpc]))
                (step_cas_lose hpc hs) rfl] at h2'
              exact Bool.noConfusion h2'
        | atDrainLock => rw [hpc] at h1; exact Bool.noConfusion h1
        | atPop => rw [hpc] at h1; exact Bool.noConfusion h1
        | atClear t => rw [hpc] at h1; exact Bool.noConfusion h1
        | atExec t => rw [hpc] at h1; exact Bool.noConfusion h1
        | atSetStateIdle =>
            rw [pcOf_self_after (pcOf_lt (by simp [hpc]))
              (step_setState hpc) rfl] at h2'
            exact Bool.noConfusion h2'
        | atSetLockIdle =>
            rw [pcOf_self_after (pcOf_lt (by simp [hpc]))
              (step_setLock hpc) rfl] at h2'
            exact Bool.noConfusion h2'
        | atAwaitRx =>
            cases hch : chanOf c k with
            | sent r =>
                rw [pcOf_self_after (pcOf_lt (by simp [hpc]))
                  (step_await_sent hpc hch) rfl] at h2'
                exact Bool.noConfusion h2'
            | unsent =>
                rw [step_await_blocked hpc
                  (fun r hr => Chan.noConfusion (hch.symm.trans hr))] at h2'
                exact Bool.noConfusion (h1.symm.trans h2')
            | rxDropped =>
                rw [step_await_blocked hpc
                  (fun r hr => Chan.noConfusion (hch.symm.trans hr))] at h2'
                exact Bool.noConfusion (h1.symm.trans h2')
        | done o =>
            rw [step_done hpc] at h2'
            exact Bool.noConfusion (h1.symm.trans h2')
        | cancelled =>
            rw [step_cancelled hpc] at h2'
            exact Bool.noConfusion (h1.symm.trans h2')
      · rw [pcOf_act_other hk] at h2'
        exact Bool.noConfusion (h1.symm.trans h2')

theorem enter_setState {c : Config} {a : Action} {i : Nat}
    (h1 : pcOf c i ≠ .atSetStateIdle)
    (h2 : pcOf (step c a) i = .atSetStateIdle) :
    a = .act i ∧ pcOf c i = .atPop ∧ c.q.deque = [] := by
  cases a with
  | cancel k =>
      have h2' : pcOf (cancelThread c k) i = .atSetStateIdle := h2
      by_cases hk : k = i
      · subst hk
        by_cases hpc : pcOf c k = .atAwaitRx
        · have h3 : pcOf (cancelThread c k) k = PC.cancelled := by
            rw [cancel_await hpc, pcOf]
            exact getD_set_eq c.pcs k .cancelled .cancelled (pcOf_lt (by simp [hpc]))
          rw [h3] at h2'
          exact PC.noConfusion h2'
        · rw [cancel_other hpc] at h2'
          exact absurd h2' h1
      · rw [pcOf_cancel_other hk] at h2'
        exact absurd h2' h1
  | act k =>
      have h2' : pcOf (stepThread c k) i = .atSetStateIdle := h2
      by_cases hk : k = i
      · subst hk
        cases hpc : pcOf c k with
        | atPush =>
            by_cases hcl : c.q.closed = true
            · rw [pcOf_self_after (pcOf_lt (by simp [hpc]))
                (step_push_closed hpc hcl) rfl] at h2'
              exact PC.noConfusion h2'
            · rw [pcOf_self_after (pcOf_lt (by simp [hpc]))
                (step_push_ok hpc (Bool.not_eq_true _ ▸ hcl)) rfl] at h2'
              exact PC.noConfusion h2'
        | atSpin =>
            by_cases hl : c.q.lock = OPEN
            · rw [step_spin_busy hpc hl] at h2'
              exact absurd h2' h1
            · rw [pcOf_self_after (pcOf_lt (by simp [hpc]))
                (step_spin_pass hpc hl) rfl] at h2'
              exact PC.noConfusion h2'
        | atCas =>
            by_cases hs : c.q.state = IDLE
            · rw [pcOf_self_after (pcOf_lt (by simp [hpc]))
                (step_cas_win hpc hs) rfl] at h2'
              exact PC.noConfusion h2'
            · rw [pcOf_self_after (pcOf_lt (by simp [hpc]))
                (step_cas_lose hpc hs) rfl] at h2'
              exact PC.noConfusion h2'
        | atDrainLock =>
            rw [pcOf_self_after (pcOf_lt (by simp [hpc]))
              (step_drainLock hpc) rfl] at h2'
            exact PC.noConfusion h2'
        | atPop =>
            cases hd : c.q.deque with
            | nil => exact ⟨rfl, rfl, rfl⟩
            | cons t rest =>
                rw [pcOf_self_after (pcOf_lt (by simp [hpc]))
                  (step_pop_cons hpc hd) rfl] at h2'
                exact PC.noConfusion h2'
        | atClear t =>
            rw [pcOf_self_after (pcOf_lt (by simp [hpc]))
              (step_clear hpc) rfl] at h2'
            exact PC.noConfusion h2'
        | atExec t =>
            by_cases hch : chanOf c t = .rxDropped
            · rw [pcOf_self_after (pcOf_lt (by simp [hpc]))
                (step_exec_fail hpc hch) rfl] at h2'
              exact PC.noConfusion h2'
            · rw [pcOf_self_after (pcOf_lt (by simp [hpc]))
                (step_exec_send hpc hch) rfl] at h2'
              exact PC.noConfusion h2'
        | atSetStateIdle => exact absurd hpc h1
        | atSetLockIdle =>
            rw [pcOf_self_after (pcOf_lt (by simp [hpc]))
              (step_setLock hpc) rfl] at h2'
            exact PC.noConfusion h2'
        | atAwaitRx =>
            cases hch : chanOf c k with
            | sent r =>
                rw [pcOf_self_after (pcOf_lt (by simp [hpc]))
                  (step_await_sent hpc hch) rfl] at h2'
                exact PC.noConfusion h2'
            | unsent =>
                rw [step_await_blocked hpc
                  (fun r hr => Chan.noConfusion (hch.symm.trans hr))] at h2'
                exact absurd h2' h1
            | rxDropped =>
                rw [step_await_blocked hpc
                  (fun r hr => Chan.noConfusion (hch.symm.trans hr))] at h2'
                exact absurd h2' h1
        | done o =>
            rw [step_done hpc] at h2'
            exact absurd h2' h1
        | cancelled =>
            rw [step_cancelled hpc] at h2'
            exact absurd h2' h1
      · rw [pcOf_act_other hk] at h2'
        exact absurd h2' h1

theorem state_to_idle {c : Config} {a : Action}
    (h1 : c.q.state = OPEN) (h2 : (step c a).q.state = IDLE) :
    ∃ i, a = .act i ∧ pcOf c i = .atSetStateIdle := by
  have hoi : ¬ (OPEN = IDLE) := by simp [OPEN, IDLE]
  cases a with
  | cancel k =>
      have h2' : (cancelThread c k).q.state = IDLE := h2
      rw [(cancel_preserves c k).1, h1] at h2'
      exact absurd h2' hoi
  | act k =>
      have h2' : (stepThread c k).q.state = IDLE := h2
      cases hpc : pcOf c k with
      | atPush =>
          by_cases hcl : c.q.closed = true
          · rw [step_push_closed hpc hcl] at h2'
            have h3 : c.q.state = IDLE := h2'
            rw [h1] at h3
            exact absurd h3 hoi
          · rw [step_push_ok hpc (Bool.not_eq_true _ ▸ hcl)] at h2'
            have h3 : c.q.state = IDLE := h2'
            rw [h1] at h3
            exact absurd h3 hoi
      | atSpin =>
          by_cases hl : c.q.lock = OPEN
          · rw [step_spin_busy hpc hl] at h2'
            rw [h1] at h2'
            exact absurd h2' hoi
          · rw [step_spin_pass hpc hl] at h2'
            have h3 : c.q.state = IDLE := h2'
            rw [h1] at h3
            exact absurd h3 hoi
      | atCas =>
          by_cases hs : c.q.state = IDLE
          · rw [h1] at hs
            exact absurd hs hoi
          · rw [step_cas_lose hpc hs] at h2'
            have h3 : c.q.state = IDLE := h2'
            rw [h1] at h3
            exact absurd h3 hoi
      | atDrainLock =>
          rw [step_drainLock hpc] at h2'
          have h3 : c.q.state = IDLE := h2'
          rw [h1] at h3
          exact absurd h3 hoi
      | atPop =>
          cases hd : c.q.deque with
          | nil =>
              rw [step_pop_empty hpc hd] at h2'
              have h3 : c.q.state = IDLE := h2'
              rw [h1] at h3
              exact absurd h3 hoi
          | cons t rest =>
              rw [step_pop_cons hpc hd] at h2'
              have h3 : c.q.state = IDLE := h2'
              rw [h1] at h3
              exact absurd h3 hoi
      | atClear t =>
          rw [step_clear hpc] at h2'
          have h3 : c.q.state = IDLE := h2'
          rw [h1] at h3
          exact absurd h3 hoi
      | atExec t =>
          by_cases hch : chanOf c t = .rxDropped
          · rw [step_exec_fail hpc hch] at h2'
            have h3 : c.q.state = IDLE := h2'
            rw [h1] at h3
            exact absurd h3 hoi
          · rw [step_exec_send hpc hch] at h2'
            have h3 : c.q.state = IDLE := h2'
            rw [h1] at h3
            exact absurd h3 hoi
      | atSetStateIdle => exact ⟨k, rfl, hpc⟩
      | atSetLockIdle =>
          rw [step_setLock hpc] at h2'
          have h3 : c.q.state = IDLE := h2'
          rw [h1] at h3
          exact absurd h3 hoi
      | atAwaitRx =>
          cases hch : chanOf c k with
          | sent r =>
              rw [step_await_sent hpc hch] at h2'
              have h3 : c.q.state = IDLE := h2'
              rw [h1] at h3
              exact absurd h3 hoi
          | unsent =>
              rw [step_await_blocked hpc
                (fun r hr => Chan.noConfusion (hch.symm.trans hr))] at h2'
              rw [h1] at h2'
              exact absurd h2' hoi
          | rxDropped =>
              rw [step_await_blocked hpc
                (fun r hr => Chan.noConfusion (hch.symm.trans hr))] at h2'
              rw [h1] at h2'
              exact absurd h2' hoi
      | done o =>
          rw [step_done hpc] at h2'
          rw [h1] at h2'
          exact absurd h2' hoi
      | cancelled =>
          rw [step_cancelled hpc] at h2'
          rw [h1] at h2'
          exact absurd h2' hoi

/-! ### More consequences of the invariant -/

theorem sentL_prefix_popped {c : Config} (h : Inv c) :
    ∃ l, c.popped = c.sentL ++ l := by
  rcases h.hold_decomp with ⟨he, _⟩ | ⟨t, _, he, _⟩ | ⟨t, he, _, _⟩
  · exact ⟨[], by rw [he, List.append_nil]⟩
  · exact ⟨[t], he⟩
  · exact ⟨[t], he⟩

theorem sentL_nodup {c : Config} (h : Inv c) : c.sentL.Nodup := by
  obtain ⟨l, he⟩ := sentL_prefix_popped h
  have hnd := popped_nodup h
  rw [he] at hnd
  exact hnd.of_append_left

theorem fifo_of_inv {c : Config} (h : Inv c) :
    (∃ l, c.pushed = c.popped ++ l) ∧ (∃ l, c.popped = c.sentL ++ l) ∧
    ∀ p q i j : Nat, p < q → c.pushed[p]? = some i → c.pushed[q]? = some j →
      j ∈ c.sentL →
      ∃ p' q' : Nat, p' < q' ∧ c.sentL[p']? = some i ∧ c.sentL[q']? = some j := by
  obtain ⟨l2, hl2⟩ := sentL_prefix_popped h
  have hP : c.pushed = c.sentL ++ (l2 ++ c.q.deque) := by
    rw [h.push_decomp, hl2, List.append_assoc]
  refine ⟨⟨c.q.deque, h.push_decomp⟩, ⟨l2, hl2⟩, ?_⟩
  intro p q i j hpq hp hq hj
  obtain ⟨q', hq'len, hq'⟩ : ∃ q', q' < c.sentL.length ∧ c.sentL[q']? = some j := by
    obtain ⟨idx, hidx⟩ := List.getElem_of_mem hj
    exact ⟨idx, hidx.1, by simp [List.getElem?_eq_getElem, hidx.1, hidx.2]⟩
  have hq'p : c.pushed[q']? = some j := by
    rw [hP, List.getElem?_append_left hq'len]
    exact hq'
  have hqq : q = q' := by
    obtain ⟨hqlen, hqe⟩ := List.getElem?_eq_some_iff.mp hq
    obtain ⟨hq'len2, hq'e⟩ := List.getElem?_eq_some_iff.mp hq'p
    exact (List.Nodup.getElem_inj_iff h.pushed_nodup).mp (hqe.trans hq'e.symm)
  have hplen : p < c.sentL.length := by omega
  have hip : c.sentL[p]? = some i := by
    have hp2 := hp
    rw [hP, List.getElem?_append_left hplen] at hp2
    exact hp2
  exact ⟨p, q', by omega, hip, hq'⟩

theorem idle_of_all_benign {c : Config} (h : Inv c)
    (hloop : ∀ i, inLoop (pcOf c i) = false)
    (hlock : ∀ i, inLockOpen (pcOf c i) = false)
    (hfail : ¬ Failed c) :
    c.q.state = IDLE ∧ c.q.lock = IDLE := by
  constructor
  · rcases h.state01 with hs | hs
    · exact hs
    · rcases h.open_wit hs with ⟨j, hj⟩ | hf
      · exact Bool.noConfusion ((hloop j).symm.trans hj)
      · exact absurd hf hfail
  · rcases h.lock01 with hs | hs
    · exact hs
    · obtain ⟨j, hj⟩ := h.lock_wit hs
      exact Bool.noConfusion ((hlock j).symm.trans hj)

theorem first_three_steps {c : Config} {f : Nat} (hpcf : pcOf c f = .atPush)
    (hcl : c.q.closed = false) (hs : c.q.state = IDLE) (hl : c.q.lock = IDLE) :
    pcOf (run c [.act f, .act f, .act f]) f = .atDrainLock ∧
    (run c [.act f, .act f, .act f]).q.state = OPEN ∧
    (run c [.act f, .act f, .act f]).q.deque = c.q.deque ++ [f] ∧
    (run c [.act f, .act f, .act f]).pushed = c.pushed ++ [f] := by
  have hflt : f < c.pcs.length := pcOf_lt (by simp [hpcf])
  have e1 := step_push_ok hpcf hcl
  have hp1 : pcOf (stepThread c f) f = .atSpin := pcOf_self_after hflt e1 rfl
  have hl1 : (stepThread c f).q.lock ≠ OPEN := by
    rw [e1]
    show c.q.lock ≠ OPEN
    rw [hl]
    simp [IDLE, OPEN]
  have e2 := step_spin_pass hp1 hl1
  have hlen1 : f < (stepThread c f).pcs.length := by
    rw [e1]
    show f < (c.pcs.set f PC.atSpin).length
    rw [List.length_set]
    exact hflt
  have hp2 : pcOf (stepThread (stepThread c f) f) f = .atCas :=
    pcOf_self_after hlen1 e2 rfl
  have hs2 : (stepThread (stepThread c f) f).q.state = IDLE := by
    rw [e2]
    show (stepThread c f).q.state = IDLE
    rw [e1]
    show c.q.state = IDLE
    exact hs
  have e3 := step_cas_win hp2 hs2
  have hlen2 : f < (stepThread (stepThread c f) f).pcs.length := by
    rw [e2]
    show f < ((stepThread c f).pcs.set f PC.atCas).length
    rw [List.length_set]
    exact hlen1
  have hp3 : pcOf (stepThread (stepThread (stepThread c f) f) f) f = .atDrainLock :=
    pcOf_self_after hlen2 e3 rfl
  refine ⟨hp3, ?_, ?_, ?_⟩
  · show (stepThread (stepThread (stepThread c f) f) f).q.state = OPEN
    rw [e3]
  · show (stepThread (stepThread (stepThread c f) f) f).q.deque = c.q.deque ++ [f]
    rw [e3]
    show (stepThread (stepThread c f) f).q.deque = c.q.deque ++ [f]
    rw [e2]
    show (stepThread c f).q.deque = c.q.deque ++ [f]
    rw [e1]
  · show (stepThread (stepThread (stepThread c f) f) f).pushed = c.pushed ++ [f]
    rw [e3]
    show (stepThread (stepThread c f) f).pushed = c.pushed ++ [f]
    rw [e2]
    show (stepThread c f).pushed = c.pushed ++ [f]
    rw [e1]

/-! ### The claims -/

/-- C1 (counterexample): the exactly-once guarantee fails on the code.  In
the lost-wakeup interleaving `lwTrace` — which contains no receiver
abandonment and no failure of any kind — caller 2's submission is accepted
(its push succeeded: `2 ∈ pushed`), yet its receiver holds no value and the
caller is parked on it, and under every continuation schedule caller 2 never
reaches any outcome: zero resolutions, while the process lives on. -/
theorem lost_wakeup_zero_resolutions :
    NoCancel lwTrace ∧ 2 ∈ lwConfig.pushed ∧ chanOf lwConfig 2 = .unsent ∧
    pcOf lwConfig 2 = .atAwaitRx ∧ NeverResolves lwConfig 2 := by
  have hparked : Parked lwConfig := by
    show ∀ i < lwConfig.pcs.length,
      parkedAt (pcOf lwConfig i) (chanOf lwConfig i) = true
    decide
  refine ⟨?_, by decide, by decide, by decide, ?_⟩
  · show ∀ a ∈ lwTrace, isCancel a = false
    decide
  · intro sched o hdone
    obtain ⟨-, -, -, -, -, -, hpcs⟩ := parked_run hparked sched
    have hlw : pcOf lwConfig 2 = .atAwaitRx := by decide
    rcases hpcs 2 with he | he
    · rw [hdone, hlw] at he
      exact PC.noConfusion he
    · rw [hdone] at he
      exact PC.noConfusion he

/-- C1 (amended): every accepted submission's receiver resolves at most
once, never twice: the successful-delivery history has no duplicates, and a
channel holding a value holds exactly the task's own result and is recorded
in that history exactly once.  (Exactly-once fails: see the lost-wakeup
counterexample — a receiver may never resolve at all, even with no
abandonment and no process termination.) -/
theorem delivery_at_most_once (tasks : List (Except Nat Nat)) (closed : Bool)
    (sched : List Action) :
    (run (init tasks closed) sched).sentL.Nodup ∧
    ∀ i r, chanOf (run (init tasks closed) sched) i = .sent r →
      r = tasks.getD i (.ok 0) ∧ i ∈ (run (init tasks closed) sched).sentL := by
  have h := inv_reach tasks closed sched
  refine ⟨sentL_nodup h, fun i r hc => ?_⟩
  obtain ⟨hr, hm⟩ := h.chan_coh i r hc
  rw [tasks_run] at hr
  exact ⟨hr, hm⟩

/-- C1 (witness): applies the at-most-once theorem on the completed
single-caller run: task 0's delivery is recorded. -/
theorem delivery_at_most_once_witness :
    (0 : Nat) ∈ (run (init [Except.ok 42] false) soloTrace).sentL :=
  ((delivery_at_most_once [Except.ok 42] false soloTrace).2 0 (Except.ok 42)
    (by decide)).2

/-- C2: tasks complete in strict push order.  In every reachable
configuration the pop history is a prefix of the push history (the store's
pop order matches its push order), the delivery history is a prefix of the
pop history, and whenever task `i` was pushed strictly before task `j` and
`j` was driven to completion, `i` was driven to completion strictly
earlier. -/
theorem fifo_completion_order (tasks : List (Except Nat Nat)) (closed : Bool)
    (sched : List Action) :
    (∃ l, (run (init tasks closed) sched).pushed =
        (run (init tasks closed) sched).popped ++ l) ∧
    (∃ l, (run (init tasks closed) sched).popped =
        (run (init tasks closed) sched).sentL ++ l) ∧
    ∀ p q i j : Nat, p < q →
      (run (init tasks closed) sched).pushed[p]? = some i →
      (run (init tasks closed) sched).pushed[q]? = some j →
      j ∈ (run (init tasks closed) sched).sentL →
      ∃ p' q' : Nat, p' < q' ∧
        (run (init tasks closed) sched).sentL[p']? = some i ∧
        (run (init tasks closed) sched).sentL[q']? = some j :=
  fifo_of_inv (inv_reach tasks closed sched)

/-- C2 (witness): in the two-caller run, task 0 (pushed first) completes
before task 1. -/
theorem fifo_completion_order_witness :
    ∃ p' q' : Nat, p' < q' ∧
      (run (init tasks3 false) pairTrace).sentL[p']? = some 0 ∧
      (run (init tasks3 false) pairTrace).sentL[q']? = some 1 :=
  (fifo_completion_order tasks3 false pairTrace).2.2 0 1 0 1 (by decide)
    (by decide) (by decide) (by decide)

/-- C3: mutual exclusion of the drain loop.  In every reachable
configuration at most one caller is inside the drain loop, and the only
transition that moves a caller into the drain loop is its own successful
Idle-to-Draining compare-and-swap on the state flag. -/
theorem drain_mutual_exclusion (tasks : List (Except Nat Nat)) (closed : Bool)
    (sched : List Action) :
    (∀ i j, inDrainBody (pcOf (run (init tasks closed) sched) i) = true →
        inDrainBody (pcOf (run (init tasks closed) sched) j) = true → i = j) ∧
    (∀ a i, inDrainBody (pcOf (run (init tasks closed) sched) i) = false →
        inDrainBody (pcOf (step (run (init tasks closed) sched) a) i) = true →
        a = .act i ∧ pcOf (run (init tasks closed) sched) i = .atCas ∧
        (run (init tasks closed) sched).q.state = IDLE ∧
        (step (run (init tasks closed) sched) a).q.state = OPEN) := by
  have h := inv_reach tasks closed sched
  constructor
  · intro i j hi hj
    have hbl : ∀ p : PC, inDrainBody p = true → inLoop p = true := by
      intro p hp
      cases p <;> first | rfl | exact Bool.noConfusion hp
    exact h.mutex i j (hbl _ hi) (hbl _ hj)
  · intro a i h1 h2
    exact enter_body h1 h2

/-- C3 (witness): a caller at the compare-and-swap with the state flag
Idle does enter the drain loop by that compare-and-swap. -/
theorem drain_mutual_exclusion_witness :
    Action.act 0 = Action.act 0 ∧
    pcOf (run (init [Except.ok 42] false) [Action.act 0, Action.act 0]) 0 =
      .atCas ∧
    (run (init [Except.ok 42] false) [Action.act 0, Action.act 0]).q.state =
      IDLE ∧
    (step (run (init [Except.ok 42] false) [Action.act 0, Action.act 0])
      (Action.act 0)).q.state = OPEN :=
  (drain_mutual_exclusion [Except.ok 42] false [Action.act 0, Action.act 0]).2
    (Action.act 0) 0 (by decide) (by decide)

/-- C4 (counterexample): a delivery failure does abort the drain loop and
does reach a caller other than the one whose submission failed.  In
`brickConfig`, caller 1 abandoned its receiver; caller 0 — whose own task
had already been delivered successfully (`chanOf _ 0 = sent (ok 10)`) —
returned the engine error, the state flag is stuck at Draining, caller 2's
task sits undrained in the store, and no task is ever driven again. -/
theorem drain_abort_misdirected_error :
    pcOf brickConfig 0 = .done .engineErr ∧
    chanOf brickConfig 0 = .sent (.ok 10) ∧
    pcOf brickConfig 1 = .cancelled ∧
    brickConfig.q.state = OPEN ∧
    brickConfig.q.deque = [2] ∧
    SendsFrozen brickConfig := by
  have hInv : Inv brickConfig := inv_reach tasks3 false (failTrace ++ [Action.act 0])
  have hF : Failed brickConfig := ⟨0, by decide⟩
  refine ⟨by decide, by decide, by decide, by decide, by decide, ?_⟩
  intro sched
  exact (failed_run hInv hF sched).2.2.1

/-- C4 (amended): when driving a popped runnable yields an error, the error
is returned to the caller currently acting as runner — possibly a different
caller than the failed submission's — and the drain loop aborts.  The step
touches nothing else: every other caller's position and channel, the store,
the flags and the histories are left unchanged, so the error never
propagates to any caller other than the runner. -/
theorem exec_error_to_runner_only (c : Config) (i t : Nat)
    (hpc : pcOf c i = .atExec t) (hch : chanOf c t = .rxDropped) :
    pcOf (stepThread c i) i = .done .engineErr ∧
    (∀ j, j ≠ i → pcOf (stepThread c i) j = pcOf c j) ∧
    (∀ j, j ≠ i → chanOf (stepThread c i) j = chanOf c j) ∧
    (stepThread c i).q = c.q ∧ (stepThread c i).sentL = c.sentL ∧
    (stepThread c i).popped = c.popped := by
  have hlt : i < c.pcs.length := pcOf_lt (by simp [hpc])
  refine ⟨pcOf_self_after hlt (step_exec_fail hpc hch) rfl, ?_, ?_, ?_, ?_, ?_⟩
  · intro j hj
    exact pcOf_act_other (Ne.symm hj)
  · intro j hj
    rw [step_exec_fail hpc hch]
    exact getD_set_ne c.chans (Ne.symm hj) _ Chan.unsent
  · rw [step_exec_fail hpc hch]
  · rw [step_exec_fail hpc hch]
  · rw [step_exec_fail hpc hch]

/-- C4 (witness): in the concrete failing configuration, the runner (caller
0) receives the engine error while pending caller 2's state is untouched. -/
theorem exec_error_to_runner_only_witness :
    pcOf (stepThread failConfig 0) 0 = .done .engineErr ∧
    chanOf (stepThread failConfig 0) 2 = chanOf failConfig 2 := by
  have h := exec_error_to_runner_only failConfig 0 1 (by decide) (by decide)
  exact ⟨h.1, h.2.2.1 2 (by decide)⟩

/-- C5: the Draining-to-Idle transition happens only through the
`state.store(IDLE)` of a runner that reached it by observing the store
empty; once every caller has resolved with its task's result, the state
flag and the in-flight flag are both back to Idle, and a fresh submission
then re-elects a runner through three steps: push, one flag observation,
and a successful compare-and-swap. -/
theorem drain_exit_and_reelection (tasks : List (Except Nat Nat))
    (closed : Bool) (sched : List Action) :
    (∀ a, (run (init tasks closed) sched).q.state = OPEN →
        (step (run (init tasks closed) sched) a).q.state = IDLE →
        ∃ i, a = .act i ∧
          pcOf (run (init tasks closed) sched) i = .atSetStateIdle) ∧
    (∀ a i, pcOf (run (init tasks closed) sched) i ≠ .atSetStateIdle →
        pcOf (step (run (init tasks closed) sched) a) i = .atSetStateIdle →
        a = .act i ∧ pcOf (run (init tasks closed) sched) i = .atPop ∧
        (run (init tasks closed) sched).q.deque = []) ∧
    ((∀ i, i < (run (init tasks closed) sched).pcs.length →
        ∃ r, pcOf (run (init tasks closed) sched) i = .done (.result r)) →
      (run (init tasks closed) sched).q.state = IDLE ∧
      (run (init tasks closed) sched).q.lock = IDLE) ∧
    (∀ f, (∀ i, i < (run (init tasks closed) sched).pcs.length → i ≠ f →
        ∃ r, pcOf (run (init tasks closed) sched) i = .done (.result r)) →
      pcOf (run (init tasks closed) sched) f = .atPush →
      (run (init tasks closed) sched).q.closed = false →
      pcOf (run (run (init tasks closed) sched) [.act f, .act f, .act f]) f =
        .atDrainLock ∧
      (run (run (init tasks closed) sched) [.act f, .act f, .act f]).q.state =
        OPEN) := by
  have h := inv_reach tasks closed sched
  refine ⟨fun a => state_to_idle, fun a i => enter_setState, ?_, ?_⟩
  · intro hall
    have hloop : ∀ i, inLoop (pcOf (run (init tasks closed) sched) i) = false := by
      intro i
      by_cases hi : i < (run (init tasks closed) sched).pcs.length
      · obtain ⟨r, hr⟩ := hall i hi
        rw [hr]
        rfl
      · rw [pcOf, getD_of_le _ _ (Nat.le_of_not_lt hi)]
        rfl
    have hlock : ∀ i, inLockOpen (pcOf (run (init tasks closed) sched) i) = false := by
      intro i
      by_cases hi : i < (run (init tasks closed) sched).pcs.length
      · obtain ⟨r, hr⟩ := hall i hi
        rw [hr]
        rfl
      · rw [pcOf, getD_of_le _ _ (Nat.le_of_not_lt hi)]
        rfl
    have hfail : ¬ Failed (run (init tasks closed) sched) := by
      rintro ⟨k, hk⟩
      obtain ⟨r, hr⟩ := hall k (pcOf_lt (by simp [hk]))
      have hco : PC.done .engineErr = .done (.result r) := hk.symm.trans hr
      have hco2 : Outcome.engineErr = .result r := by injection hco
      exact Outcome.noConfusion hco2
    exact idle_of_all_benign h hloop hlock hfail
  · intro f hall hpcf hcl
    have hloop : ∀ i, inLoop (pcOf (run (init tasks closed) sched) i) = false := by
      intro i
      by_cases hif : i = f
      · rw [hif, hpcf]
        rfl
      · by_cases hi : i < (run (init tasks closed) sched).pcs.length
        · obtain ⟨r, hr⟩ := hall i hi hif
          rw [hr]
          rfl
        · rw [pcOf, getD_of_le _ _ (Nat.le_of_not_lt hi)]
          rfl
    have hlock : ∀ i, inLockOpen (pcOf (run (init tasks closed) sched) i) = false := by
      intro i
      by_cases hif : i = f
      · rw [hif, hpcf]
        rfl
      · by_cases hi : i < (run (init tasks closed) sched).pcs.length
        · obtain ⟨r, hr⟩ := hall i hi hif
          rw [hr]
          rfl
        · rw [pcOf, getD_of_le _ _ (Nat.le_of_not_lt hi)]
          rfl
    have hfail : ¬ Failed (run (init tasks closed) sched) := by
      rintro ⟨k, hk⟩
      have hkf : k ≠ f := by
        rintro rfl
        rw [hk] at hpcf
        exact PC.noConfusion hpcf
      obtain ⟨r, hr⟩ := hall k (pcOf_lt (by simp [hk])) hkf
      have hco : PC.done .engineErr = .done (.result r) := hk.symm.trans hr
      have hco2 : Outcome.engineErr = .result r := by injection hco
      exact Outcome.noConfusion hco2
    obtain ⟨hs, hl⟩ := idle_of_all_benign h hloop hlock hfail
    obtain ⟨h1, h2, -, -⟩ := first_three_steps hpcf hcl hs hl
    exact ⟨h1, h2⟩

/-- C5 (witness): after a completed single-caller run with a second caller
not yet started, that second caller's three steps elect it as runner. -/
theorem drain_exit_and_reelection_witness :
    pcOf (run (run (init [Except.ok 42, Except.ok 7] false) soloTrace)
      [Action.act 1, Action.act 1, Action.act 1]) 1 = .atDrainLock := by
  refine ((drain_exit_and_reelection [Except.ok 42, Except.ok 7] false
    soloTrace).2.2.2 1 ?_ (by decide) (by decide)).1
  intro i hi hne
  have hlen : (run (init [Except.ok 42, Except.ok 7] false) soloTrace).pcs.length = 2 := by
    decide
  rw [hlen] at hi
  have hi0 : i = 0 := by omega
  rw [hi0]
  exact ⟨Except.ok 42, by decide⟩

/-- C6: a submitted computation's own domain error is delivered as a normal
result value.  Every caller that resolves with a result receives exactly its
own task's value — including `Except.error` values — and driving a task
whose value is a domain error performs a normal successful delivery: the
channel receives `sent (error e)`, the runner continues the loop at the next
pop, and the delivery history records the task like any success. -/
theorem domain_error_normal_delivery :
    (∀ (tasks : List (Except Nat Nat)) (closed : Bool) (sched : List Action)
        (i : Nat) (r : Except Nat Nat),
        pcOf (run (init tasks closed) sched) i = .done (.result r) →
        r = tasks.getD i (.ok 0)) ∧
    (∀ (c : Config) (i t e : Nat),
        pcOf c i = .atExec t → chanOf c t = .unsent →
        c.tasks.getD t (.ok 0) = .error e → t < c.chans.length →
        chanOf (stepThread c i) t = .sent (.error e) ∧
        pcOf (stepThread c i) i = .atDrainLock ∧
        (stepThread c i).sentL = c.sentL ++ [t]) := by
  constructor
  · intro tasks closed sched i r hd
    have h := inv_reach tasks closed sched
    have hr := h.done_res i r hd
    rw [tasks_run] at hr
    exact hr
  · intro c i t e hpc hch htask htlt
    have hlt : i < c.pcs.length := pcOf_lt (by simp [hpc])
    have hne : chanOf c t ≠ .rxDropped := by rw [hch]; simp
    refine ⟨?_, pcOf_self_after hlt (step_exec_send hpc hne) rfl, ?_⟩
    · rw [step_exec_send hpc hne]
      show (c.chans.set t (.sent (c.tasks.getD t (.ok 0)))).getD t .unsent =
        .sent (.error e)
      rw [getD_set_eq c.chans t _ .unsent htlt, htask]
    · rw [step_exec_send hpc hne]

/-- C6 (witness): driving a task whose computation produced the domain error
`7` sends `error 7` through its channel as a normal delivery. -/
theorem domain_error_normal_delivery_witness :
    chanOf (stepThread (run (init [Except.error 7] false) toExecTrace) 0) 0 =
      .sent (.error 7) :=
  (domain_error_normal_delivery.2 (run (init [Except.error 7] false) toExecTrace)
    0 0 7 (by decide) (by decide) (by decide) (by decide)).1

/-- C7: a failed push surfaces immediately.  When the store is closed, the
submitting caller's single step moves it directly to the push-failure
outcome: the engine flags, the store, every channel, every history and every
other caller are untouched, and a caller at a final outcome never takes
another step — no busy-wait, no compare-and-swap, no receiver await. -/
theorem push_failure_surfaces_immediately (c : Config) (i : Nat)
    (hpc : pcOf c i = .atPush) (hcl : c.q.closed = true) :
    pcOf (stepThread c i) i = .done .pushFailed ∧
    (stepThread c i).q = c.q ∧ (stepThread c i).chans = c.chans ∧
    (stepThread c i).pushed = c.pushed ∧ (stepThread c i).popped = c.popped ∧
    (stepThread c i).sentL = c.sentL ∧
    (∀ j, j ≠ i → pcOf (stepThread c i) j = pcOf c j) ∧
    (∀ (d : Config) (k : Nat) (o : Outcome),
        pcOf d k = .done o → stepThread d k = d) := by
  have hlt : i < c.pcs.length := pcOf_lt (by simp [hpc])
  refine ⟨pcOf_self_after hlt (step_push_closed hpc hcl) rfl,
    ?_, ?_, ?_, ?_, ?_, ?_, ?_⟩
  · rw [step_push_closed hpc hcl]
  · rw [step_push_closed hpc hcl]
  · rw [step_push_closed hpc hcl]
  · rw [step_push_closed hpc hcl]
  · rw [step_push_closed hpc hcl]
  · intro j hj
    exact pcOf_act_other (Ne.symm hj)
  · intro d k o hd
    exact step_done hd

/-- C7 (witness): a push against a closed store fails immediately with the
engine untouched. -/
theorem push_failure_surfaces_immediately_witness :
    pcOf (stepThread (init [Except.ok 1] true) 0) 0 = .done .pushFailed ∧
    (stepThread (init [Except.ok 1] true) 0).q = (init [Except.ok 1] true).q := by
  have h := push_failure_surfaces_immediately (init [Except.ok 1] true) 0
    (by decide) (by decide)
  exact ⟨h.1, h.2.1⟩

/-- C8 (counterexample): both halves of the claim fail on the code.  First,
the flag observation and the compare-and-swap are not atomic: in
`toctouConfig`, caller 1 has already passed its busy-wait, the in-flight
flag is `OPEN` again (runner 0 is mid pop cycle), and caller 1's very next
step executes the compare-and-swap — a CAS attempted while the flag is
true.  Second, the flag discipline does not prevent a just-pushed task from
being missed: in the no-abandonment lost-wakeup run, accepted task 2 is
never driven under any continuation. -/
theorem cas_while_flag_open_and_missed_push :
    toctouConfig.q.lock = OPEN ∧ pcOf toctouConfig 1 = .atCas ∧
    pcOf (stepThread toctouConfig 1) 1 = .atAwaitRx ∧
    NoCancel lwTrace ∧ 2 ∈ lwConfig.pushed ∧ 2 ∉ lwConfig.sentL ∧
    SendsFrozen lwConfig := by
  have hparked : Parked lwConfig := by
    show ∀ i < lwConfig.pcs.length,
      parkedAt (pcOf lwConfig i) (chanOf lwConfig i) = true
    decide
  refine ⟨by decide, by decide, by decide, ?_, by decide, by decide, ?_⟩
  · show ∀ a ∈ lwTrace, isCancel a = false
    decide
  · intro sched
    exact (parked_run hparked sched).2.2.1

/-- C8 (amended): after a successful push the caller busy-waits without
suspending — while the in-flight flag reads `OPEN` its step changes
nothing — and it proceeds towards the compare-and-swap only upon observing
the flag not `OPEN`; reaching the compare-and-swap position happens only
through such an observation.  (The observation and the CAS are separate
steps, so the CAS itself may execute while the flag is `OPEN` again, and
the discipline does not guarantee a just-pushed task is seen — see the
counterexample.) -/
theorem spin_observation_gate :
    (∀ (c : Config) (i : Nat), pcOf c i = .atSpin → c.q.lock = OPEN →
        stepThread c i = c) ∧
    (∀ (c : Config) (i : Nat), pcOf c i = .atSpin → c.q.lock ≠ OPEN →
        stepThread c i = { c with pcs := c.pcs.set i .atCas }) ∧
    (∀ (c : Config) (a : Action) (i : Nat), pcOf c i ≠ .atCas →
        pcOf (step c a) i = .atCas →
        a = .act i ∧ pcOf c i = .atSpin ∧ c.q.lock ≠ OPEN) :=
  ⟨fun _ _ hpc hl => step_spin_busy hpc hl,
   fun _ _ hpc hl => step_spin_pass hpc hl,
   fun _ _ _ h1 h2 => enter_cas h1 h2⟩

/-- C8 (witness): a caller that just pushed reaches the compare-and-swap
only after observing the flag not `OPEN`. -/
theorem spin_observation_gate_witness :
    pcOf (run (init tasks3 false) [Action.act 1]) 1 = .atSpin ∧
    ¬ (run (init tasks3 false) [Action.act 1]).q.lock = OPEN := by
  have h := spin_observation_gate.2.2 (run (init tasks3 false) [Action.act 1])
    (Action.act 1) 1 (by decide) (by decide)
  exact ⟨h.2.1, h.2.2⟩

/-- C9: an error from driving a popped runnable bricks the engine.  If in a
reachable configuration the runner is about to drive a task whose receiver
was abandoned, its step returns the engine error without resetting the
state flag: the flag is `OPEN` in that and every later configuration, no
task is ever popped or driven again (the pop and delivery histories are
frozen), and every caller that subsequently reaches the compare-and-swap
fails it and proceeds directly to awaiting its receiver. -/
theorem exec_error_bricks_engine (tasks : List (Except Nat Nat)) (closed : Bool)
    (sched : List Action) (i t : Nat)
    (hpc : pcOf (run (init tasks closed) sched) i = .atExec t)
    (hch : chanOf (run (init tasks closed) sched) t = .rxDropped) :
    pcOf (step (run (init tasks closed) sched) (.act i)) i = .done .engineErr ∧
    (step (run (init tasks closed) sched) (.act i)).q.state = OPEN ∧
    (∀ ext,
      (run (step (run (init tasks closed) sched) (.act i)) ext).q.state = OPEN ∧
      (run (step (run (init tasks closed) sched) (.act i)) ext).sentL =
        (step (run (init tasks closed) sched) (.act i)).sentL ∧
      (run (step (run (init tasks closed) sched) (.act i)) ext).popped =
        (step (run (init tasks closed) sched) (.act i)).popped) ∧
    (∀ ext j,
      pcOf (run (step (run (init tasks closed) sched) (.act i)) ext) j = .atCas →
      pcOf (stepThread (run (step (run (init tasks closed) sched) (.act i)) ext) j)
        j = .atAwaitRx) := by
  have h := inv_reach tasks closed sched
  have hlt : i < (run (init tasks closed) sched).pcs.length :=
    pcOf_lt (by simp [hpc])
  have hp1 : pcOf (step (run (init tasks closed) sched) (.act i)) i =
      .done .engineErr :=
    pcOf_self_after hlt (step_exec_fail hpc hch) rfl
  have hInv2 : Inv (step (run (init tasks closed) sched) (.act i)) :=
    inv_step h _
  have hF : Failed (step (run (init tasks closed) sched) (.act i)) := ⟨i, hp1⟩
  refine ⟨hp1, (hInv2.failed_stuck hF).2, ?_, ?_⟩
  · intro ext
    obtain ⟨-, a, b, c'⟩ := failed_run hInv2 hF ext
    exact ⟨a, b, c'⟩
  · intro ext j hj
    obtain ⟨-, hso, -, -⟩ := failed_run hInv2 hF ext
    have hsne : (run (step (run (init tasks closed) sched) (.act i)) ext).q.state
        ≠ IDLE := by
      rw [hso]
      simp [OPEN, IDLE]
    have hjlt : j <
        (run (step (run (init tasks closed) sched) (.act i)) ext).pcs.length :=
      pcOf_lt (by simp [hj])
    rw [step_cas_lose hj hsne]
    exact getD_set_eq _ j .atAwaitRx .cancelled hjlt

/-- C9 (witness): the concrete failing run: runner 0, about to drive
abandoned task 1, steps to the engine error. -/
theorem exec_error_bricks_engine_witness :
    pcOf (step failConfig (Action.act 0)) 0 = .done .engineErr :=
  (exec_error_bricks_engine tasks3 false failTrace 0 1 (by decide)
    (by decide)).1

/-- C10: a freshly constructed engine has an empty store, both flags
`IDLE`, and an open (never closed) store; consequently, when at least one
caller exists, the first submission's three steps — push, one busy-wait
observation that exits immediately, and the compare-and-swap that succeeds
— make that caller the runner, with the state flag now Draining and its
task in the store. -/
theorem fresh_engine_first_runner (tasks : List (Except Nat Nat)) :
    (init tasks false).q.deque = [] ∧ (init tasks false).q.state = IDLE ∧
    (init tasks false).q.lock = IDLE ∧ (init tasks false).q.closed = false ∧
    (tasks ≠ [] →
      pcOf (run (init tasks false) [.act 0, .act 0, .act 0]) 0 = .atDrainLock ∧
      (run (init tasks false) [.act 0, .act 0, .act 0]).q.state = OPEN ∧
      (run (init tasks false) [.act 0, .act 0, .act 0]).q.deque = [0] ∧
      (run (init tasks false) [.act 0, .act 0, .act 0]).pushed = [0]) := by
  refine ⟨rfl, rfl, rfl, rfl, fun hne => ?_⟩
  have hpos : 0 < tasks.length := List.length_pos.mpr hne
  have hpcf : pcOf (init tasks false) 0 = .atPush :=
    getD_replicate_lt tasks.length 0 PC.atPush PC.cancelled hpos
  obtain ⟨h1, h2, h3, h4⟩ := first_three_steps hpcf rfl rfl rfl
  refine ⟨h1, h2, ?_, ?_⟩
  · rw [h3]
    show ([] : List Nat) ++ [0] = [0]
    rw [List.nil_append]
  · rw [h4]
    show ([] : List Nat) ++ [0] = [0]
    rw [List.nil_append]

/-- C10 (witness): with one task the fresh engine's first caller becomes
the runner. -/
theorem fresh_engine_first_runner_witness :
    pcOf (run (init [Except.ok 42] false)
      [Action.act 0, Action.act 0, Action.act 0]) 0 = .atDrainLock :=
  ((fresh_engine_first_runner [Except.ok 42]).2.2.2.2 (by decide)).1

end ActerQueue
